import Mathlib

/-!
Shallow embedding of the `nimiq-mempool` crate (`src/mempool/src/lib.rs`) of the
core-rs-albatross repository, together with a model of its external
collaborators (blockchain queries, account-trie simulation, the mempool filter,
and SHA-256 from the hash subsystem), and proofs about the mempool operations.

Modelling conventions:
* A transaction is a record of the observable attributes the mempool reads.
  Its content-addressed fingerprint (`Blake2bHash` in the source) is modelled
  as an injective numeric encoding `fingerprint` of the record's fields.
* `BTreeSet<Arc<Transaction>>` is modelled as a list kept strictly sorted in
  ascending order of the transaction comparator `txCmp`; `HashMap` is
  modelled as an association list.
* Rust `f64` fee-per-byte comparisons (`fee / serialized_size`) are modelled
  exactly by integer cross-multiplication; `fee_per_byte t < fee_per_byte u`
  is `t.fee * u.size < u.fee * t.size`.
* The blockchain and the account module are external collaborators (spec §1:
  explicitly out of scope); they are modelled as an environment `Env S` of
  oracles, where `S` is the state of one scoped write-transaction over the
  accounts trie.  Each `blockchain.write_transaction()` in the source becomes
  a fresh `env.freshSim`; committing to the open write-transaction becomes
  explicit state passing of `S`.  `blockchain.get_account` reads the
  blockchain's committed state and therefore does not depend on `S`,
  exactly as in the source, where no `WriteTransaction` is passed to it.
-/

/-- Transaction record: the observable attributes used by the mempool
(sender/recipient addresses and account types, value, fee, serialized size,
validity window, and the `CONTRACT_CREATION` flag).  Addresses and account
types are abstracted as numbers. -/

structure Tx where
  sender : Nat
  recipient : Nat
  senderType : Nat
  recipientType : Nat
  value : Nat
  fee : Nat
  size : Nat
  validFrom : Nat
  validTo : Nat
  contractCreation : Bool
  deriving DecidableEq

/-- Modelled from the spec: the content-addressed fingerprint (`tx.hash()`,
a Blake2b hash in the source, whose implementation is outside the mempool
crate).  The spec calls it "a unique content-addressed fingerprint", so it is
modelled as an injective numeric encoding of the transaction's content. -/
def fingerprint (t : Tx) : Nat :=
  Nat.pair t.sender (Nat.pair t.recipient (Nat.pair t.senderType
    (Nat.pair t.recipientType (Nat.pair t.fee (Nat.pair t.size
      (Nat.pair t.validFrom (Nat.pair t.validTo
        (Nat.pair t.contractCreation.toNat t.value))))))))

/-- Modelled from the spec: the total order on transactions used by every
`BTreeSet` in the mempool ("fee-per-byte ascending, with ties broken by a
deterministic secondary key derived from the transaction content").
`fee_per_byte` comparisons are exact rational comparisons, written by
cross-multiplication. -/
def txCmp (t u : Tx) : Ordering :=
  if t.fee * u.size < u.fee * t.size then .lt
  else if u.fee * t.size < t.fee * u.size then .gt
  else if fingerprint t < fingerprint u then .lt
  else if fingerprint u < fingerprint t then .gt
  else .eq

/-- Strict comparator order on transactions, as a Prop. -/
def txLt (t u : Tx) : Prop := txCmp t u = .lt

instance : DecidableRel txLt := fun t u => by unfold txLt; infer_instance

/-- A transaction is "free" when its fee-per-byte is below
`TRANSACTION_RELAY_FEE_MIN = 1` luna/byte: exactly when `fee < size`. -/
def isFree (t : Tx) : Bool := t.fee < t.size

/-- Modelled from the spec: `Transaction::is_valid_at(h)` (transaction module,
outside the mempool crate): the validity window is the range of block heights
at which the transaction may be included. -/
def isValidAt (t : Tx) (h : Nat) : Bool := t.validFrom ≤ h && h ≤ t.validTo

/-- Account as seen by the mempool: its type tag and balance
(`account_type()` and `balance()`). -/
structure Account where
  kind : Nat
  balance : Nat
  deriving DecidableEq

/-- Environment of external collaborators consumed by the mempool: the
blockchain read snapshot, the filter rules (pure predicates, spec §4.2), the
transaction verifier, and the account-trie simulation primitives acting on the
state `S` of one scoped write-transaction. -/
structure Env (S : Type) where
  /-- state of a freshly opened `blockchain.write_transaction()` -/
  freshSim : S
  /-- `Account::create` applied to the open write-transaction -/
  create : S → Tx → Option S
  /-- `Account::commit_incoming_transaction` -/
  commitIncoming : S → Tx → Option S
  /-- `Account::commit_outgoing_transaction` -/
  commitOutgoing : S → Tx → Option S
  /-- `Account::revert_outgoing_transaction` (with its receipt) -/
  revertOutgoing : S → Tx → S
  /-- `transaction.verify_mut(network_id).is_ok()` -/
  verifyOk : Tx → Bool
  /-- `blockchain.block_number()` -/
  blockNumber : Nat
  /-- `blockchain.contains_tx_in_validity_window(hash)` -/
  inValidityWindow : Nat → Bool
  /-- `blockchain.get_account(addr)`, reading committed chain state only -/
  getAccount : Nat → Option Account
  /-- `blockchain.staking_contract_address()` -/
  stakingAddr : Nat
  /-- `Transaction::MIN_SIZE` (transaction module constant) -/
  minTxSize : Nat
  /-- filter rule `accepts_transaction` (pure in `t`) -/
  acceptsTx : Tx → Bool
  /-- filter rule `accepts_recipient_balance(t, old, new)` -/
  acceptsRecipientBalance : Tx → Nat → Nat → Bool
  /-- filter rule `accepts_sender_balance(t, old, new)` -/
  acceptsSenderBalance : Tx → Nat → Nat → Bool
  /-- blacklist ring capacity (`MempoolConfig::filter_limit`) -/
  filterLimit : Nat

/-- Maximum number of transactions per sender (source constant). -/
def TRANSACTIONS_PER_SENDER_MAX : Nat := 500

/-- Maximum number of "free" transactions per sender (source constant). -/
def FREE_TRANSACTIONS_PER_SENDER_MAX : Nat := 10

/-- Maximum number of transactions in the mempool (source constant). -/
def SIZE_MAX : Nat := 100000

/-- Association-list lookup (model of `HashMap::get`). -/
def lookupA {α : Type} (k : Nat) : List (Nat × α) → Option α
  | [] => none
  | (k', v) :: r => if k' = k then some v else lookupA k r

/-- Model of `HashMap::insert` (replaces the entry if the key is present,
appends it otherwise). -/
def insertA {α : Type} (k : Nat) (v : α) : List (Nat × α) → List (Nat × α)
  | [] => [(k, v)]
  | (k', v') :: r => if k' = k then (k, v) :: r else (k', v') :: insertA k v r

/-- Model of `HashMap::remove`. -/
def eraseA {α : Type} (k : Nat) : List (Nat × α) → List (Nat × α)
  | [] => []
  | (k', v') :: r => if k' = k then r else (k', v') :: eraseA k r

/-- Model of `BTreeSet::insert` on a strictly ascending list: the set is
unchanged when an element comparing equal is already present. -/
def setInsert (t : Tx) : List Tx → List Tx
  | [] => [t]
  | u :: r =>
    match txCmp t u with
    | .lt => t :: u :: r
    | .eq => u :: r
    | .gt => u :: setInsert t r

/-- Model of `BTreeSet::remove` on a strictly ascending list. -/
def setErase (t : Tx) : List Tx → List Tx
  | [] => []
  | u :: r =>
    match txCmp t u with
    | .eq => r
    | _ => u :: setErase t r

/-- Insert `t` into the bucket of key `k`, creating the bucket on demand
(model of `entry(k).or_insert_with(BTreeSet::new)` followed by `insert`). -/
def bucketInsert (k : Nat) (t : Tx) : List (Nat × List Tx) → List (Nat × List Tx)
  | [] => [(k, [t])]
  | (k', b) :: r => if k' = k then (k', setInsert t b) :: r else (k', b) :: bucketInsert k t r

/-- Remove `t` from the bucket of key `k`, deleting the bucket if it becomes
empty (model of the remove-then-`is_empty` dance in `remove_transaction`). -/
def bucketErase (k : Nat) (t : Tx) : List (Nat × List Tx) → List (Nat × List Tx)
  | [] => []
  | (k', b) :: r =>
    if k' = k then
      let b' := setErase t b
      if b'.isEmpty then r else (k', b') :: r
    else (k', b) :: bucketErase k t r

/-- MempoolState: the four co-indexed views plus the filter blacklist.
The filter's rule parameters are immutable configuration and live in `Env`;
the blacklist (the only mutable filter state) lives here.  The source type
also holds the blockchain handle, the notifier and the locks, which have no
state observable by the claims. -/
structure MempoolState where
  byHash : List (Nat × Tx)
  bySender : List (Nat × List Tx)
  byRecipient : List (Nat × List Tx)
  sortedFee : List Tx
  blacklist : List Nat
  deriving DecidableEq

/-- Modelled from the spec: the filter's bounded FIFO blacklist
(`MempoolFilter::blacklist`, in `filter.rs`, which is not part of the given
sources): insert at the newest end, displace the oldest entry when the ring
exceeds its capacity. -/
def blacklistPush (limit : Nat) (h : Nat) (l : List Nat) : List Nat :=
  let l' := l ++ [h]
  if limit < l'.length then l'.tail else l'

/-- Modelled from the spec: `MempoolFilter::blacklisted(hash)` is membership
in the FIFO blacklist. -/
def blacklisted (st : MempoolState) (h : Nat) : Bool := st.blacklist.contains h

/-- State change of `state.filter.blacklist(hash)`. -/
def withBlacklist {S : Type} (env : Env S) (st : MempoolState) (h : Nat) : MempoolState :=
  { st with blacklist := blacklistPush env.filterLimit h st.blacklist }

/-- Return code of `push_transaction` (the five variants of the source enum). -/
inductive ReturnCode where
  | FeeTooLow
  | Invalid
  | Accepted
  | Known
  | Filtered
  deriving DecidableEq

/-- `Mempool::add_transaction`: insert the transaction into all four indexes,
creating sender/recipient buckets on demand. -/
def addTransaction (st : MempoolState) (h : Nat) (t : Tx) : MempoolState :=
  { st with
    byHash := insertA h t st.byHash
    sortedFee := setInsert t st.sortedFee
    byRecipient := bucketInsert t.recipient t st.byRecipient
    bySender := bucketInsert t.sender t st.bySender }

/-- `Mempool::remove_transaction`: remove from all four indexes and delete
any sender/recipient bucket that becomes empty. -/
def removeTransaction (st : MempoolState) (t : Tx) : MempoolState :=
  { st with
    byHash := eraseA (fingerprint t) st.byHash
    sortedFee := setErase t st.sortedFee
    bySender := bucketErase t.sender t st.bySender
    byRecipient := bucketErase t.recipient t st.byRecipient }

/-- The free-transaction quota loop of `push_transaction` (source lines
141-154): iterate the sender's `BTreeSet` in its iteration order (ascending
fee-per-byte), count entries below the relay-fee threshold, return `true`
(reject) when the count reaches `FREE_TRANSACTIONS_PER_SENDER_MAX`, and stop
at the first non-free entry. -/
def freeQuotaHit : List Tx → Nat → Bool
  | [], _ => false
  | u :: r, n =>
    if isFree u then
      if FREE_TRANSACTIONS_PER_SENDER_MAX ≤ n + 1 then true else freeQuotaHit r (n + 1)
    else false

/-- Phase 1 of the per-sender replay in `push_transaction` (source lines
266-289): walk the sender's transactions from highest fee-per-byte down
(`iter().next_back()`), breaking at the first transaction that `t` compares
greater than; apply each walked transaction's outgoing side; `none` models the
`Invalid` return on a failed application.  Returns the simulation state, the
number applied, and the not-yet-walked (descending) remainder. -/
def applyHigher {S : Type} (env : Env S) (t : Tx) : List Tx → S → Nat → Option (S × Nat × List Tx)
  | [], sim, n => some (sim, n, [])
  | u :: r, sim, n =>
    if txCmp t u = .gt then some (sim, n, u :: r)
    else
      match env.commitOutgoing sim u with
      | none => none
      | some sim' => applyHigher env t r sim' (n + 1)

/-- Record one transaction as marked for eviction in a walk result. -/
def consRemoved {S : Type} (u : Tx) (p : S × Nat × List Tx) : S × Nat × List Tx :=
  (p.1, p.2.1, u :: p.2.2)

/-- Phase 2 of the per-sender replay (source lines 330-349): walk the
remaining lower-fee transactions; keep one (incrementing the count) when the
count is below `TRANSACTIONS_PER_SENDER_MAX` and its outgoing side applies;
otherwise mark it for eviction.  Returns the final simulation state, the final
count, and the marked transactions in walk order. -/
def evictLower {S : Type} (env : Env S) : List Tx → S → Nat → S × Nat × List Tx
  | [], sim, n => (sim, n, [])
  | u :: r, sim, n =>
    if n < TRANSACTIONS_PER_SENDER_MAX then
      match env.commitOutgoing sim u with
      | some sim' => evictLower env r sim' (n + 1)
      | none => consRemoved u (evictLower env r sim n)
    else consRemoved u (evictLower env r sim n)

/-- The commit block of `push_transaction` (source lines 352-374): add the new
transaction, remove every eviction victim, and if the pool now exceeds
`SIZE_MAX` remove the globally lowest-fee transaction. -/
def pushCommit (st : MempoolState) (t : Tx) (toRemove : List Tx) : MempoolState :=
  let st1 := addTransaction st (fingerprint t) t
  let st2 := toRemove.foldl removeTransaction st1
  if SIZE_MAX < st2.sortedFee.length then
    match st2.sortedFee.head? with
    | some m => removeTransaction st2 m
    | none => st2
  else st2

/-- The incoming-side application of a transaction to a scoped
write-transaction: `Account::create` when the contract-creation flag is set,
`Account::commit_incoming_transaction` otherwise (this if-else appears in
`push_transaction`, `evict_transactions` and `restore_transactions`). -/
def incomingSim {S : Type} (env : Env S) (t : Tx) : Option S :=
  if t.contractCreation then env.create env.freshSim t
  else env.commitIncoming env.freshSim t

/-- The per-sender replay tail of `push_transaction` (source lines 254-389):
phase 1 over the higher-fee transactions, the per-sender cap check, the new
transaction's outgoing side, the sender balance policy, phase 2, and the
commit block.  The sender-balance policy's old and new balances are both read
through `blockchain.get_account`, which cannot observe the open scoped
write-transaction; the re-fetch therefore yields the same account. -/
def pushReplay {S : Type} (env : Env S) (st : MempoolState) (t : Tx) (bucket : List Tx)
    (sim1 : S) (senderAcc : Account) : ReturnCode × MempoolState :=
  match applyHigher env t bucket.reverse sim1 0 with
  | none => (.Invalid, st)
  | some (sim2, k, rest) =>
    if TRANSACTIONS_PER_SENDER_MAX ≤ k then
      (.FeeTooLow, st)
    else
      match env.commitOutgoing sim2 t with
      | none => (.Invalid, st)
      | some sim3 =>
        if ¬ env.acceptsSenderBalance t senderAcc.balance
            ((env.getAccount t.sender).getD senderAcc).balance = true then
          (.Filtered, withBlacklist env st (fingerprint t))
        else
          (.Accepted, pushCommit st t (evictLower env rest sim3 (k + 1)).2.2)

/-- The account-facing middle of `push_transaction` (source lines 173-252):
recipient account fetch and contract-creation check, the incoming-side
simulation, the recipient balance policy (whose new balance is re-fetched
through `blockchain.get_account` and therefore cannot observe the simulated
write), and the sender account fetch and type check. -/
def pushAccounts {S : Type} (env : Env S) (st : MempoolState) (t : Tx)
    (bucket : List Tx) : ReturnCode × MempoolState :=
  if ¬ (t.contractCreation =
      decide (((env.getAccount t.recipient).getD ⟨0, 0⟩).kind ≠ t.recipientType)) then
    (.Invalid, st)
  else
    match incomingSim env t with
    | none => (.Invalid, st)
    | some sim1 =>
      if ¬ env.acceptsRecipientBalance t ((env.getAccount t.recipient).getD ⟨0, 0⟩).balance
          ((env.getAccount t.recipient).getD ⟨0, 0⟩).balance = true then
        (.Filtered, withBlacklist env st (fingerprint t))
      else
        match env.getAccount t.sender with
        | none => (.Invalid, st)
        | some senderAcc =>
          if ¬ senderAcc.kind = t.senderType then
            (.Invalid, st)
          else pushReplay env st t bucket sim1 senderAcc

/-- `Mempool::push_transaction`.  The pipeline mirrors the source order:
filter/blacklist, duplicate check, intrinsic verification, free-transaction
quota, height validity, already-mined check, then the account checks
(`pushAccounts`) and the per-sender replay (`pushReplay`). -/
def pushTransaction {S : Type} (env : Env S) (st : MempoolState) (t : Tx) :
    ReturnCode × MempoolState :=
  if ¬ env.acceptsTx t = true ∨ blacklisted st (fingerprint t) = true then
    (.Filtered, withBlacklist env st (fingerprint t))
  else if (lookupA (fingerprint t) st.byHash).isSome then
    (.Known, st)
  else if ¬ env.verifyOk t = true then
    (.Invalid, st)
  else if isFree t = true ∧
      freeQuotaHit ((lookupA t.sender st.bySender).getD []) 0 = true then
    (.FeeTooLow, st)
  else if ¬ isValidAt t (env.blockNumber + 1) = true then
    (.Invalid, st)
  else if env.inValidityWindow (fingerprint t) = true then
    (.Invalid, st)
  else pushAccounts env st t ((lookupA t.sender st.bySender).getD [])

/-- `Mempool::get_transactions(max_count, min_fee_per_byte)`: iterate
`sorted_fee` in its iteration order (ascending), filter by the fee-per-byte
threshold, take up to `max_count`.  The `f64` threshold is modelled as the
exact rational `minNum / minDen`; the filter keeps `u` when
`fee_per_byte u ≥ minNum / minDen`. -/
def getTransactions (st : MempoolState) (maxCount : Nat) (minNum minDen : Nat) : List Tx :=
  ((st.sortedFee.filter (fun u => minNum * u.size ≤ minDen * u.fee)).take maxCount)

/-- The walk of `get_transactions_for_block` (source lines 432-483) over the
ascending iteration of `sorted_fee`: staking-contract senders/recipients are
simulated in-walk (skipping on failure, with the outgoing side reverted when
the incoming side fails), then the size test decides inclusion, and the walk
breaks when the remaining budget is below `Transaction::MIN_SIZE`. -/
def gtfbWalk {S : Type} (env : Env S) (maxSize : Nat) : List Tx → S → Nat → List Tx
  | [], _, _ => []
  | u :: r, sim, size =>
    let sizeStep : S → List Tx := fun sim' =>
      if size + u.size ≤ maxSize then u :: gtfbWalk env maxSize r sim' (size + u.size)
      else if maxSize - size < env.minTxSize then []
      else gtfbWalk env maxSize r sim' size
    if u.sender = env.stakingAddr then
      match env.commitOutgoing sim u with
      | none => gtfbWalk env maxSize r sim size
      | some sim1 =>
        if u.recipient = env.stakingAddr then
          match env.commitIncoming sim1 u with
          | none => gtfbWalk env maxSize r (env.revertOutgoing sim1 u) size
          | some sim2 => sizeStep sim2
        else sizeStep sim1
    else if u.recipient = env.stakingAddr then
      match env.commitIncoming sim u with
      | none => gtfbWalk env maxSize r sim size
      | some sim1 => sizeStep sim1
    else sizeStep sim

/-- `Mempool::get_transactions_for_block(max_size)`. -/
def getTransactionsForBlock {S : Type} (env : Env S) (st : MempoolState) (maxSize : Nat) :
    List Tx :=
  gtfbWalk env maxSize st.sortedFee env.freshSim 0

/-- Classification of one pool transaction by `evict_transactions` (source
lines 553-600).  A fresh scoped write-transaction is opened for each
transaction (the source creates `db_txn` inside the innermost loop), so the
incoming and outgoing sides are checked against the head state, threaded only
from the incoming to the outgoing side of the same transaction. -/
inductive EvictMark where
  | mined
  | evicted
  | keep
  deriving DecidableEq

/-- Per-transaction check of `evict_transactions`. -/
def evictMark {S : Type} (env : Env S) (height : Nat) (u : Tx) : EvictMark :=
  if ¬ isValidAt u height = true then .evicted
  else if env.inValidityWindow (fingerprint u) = true then .mined
  else
    match incomingSim env u with
    | none => .evicted
    | some sim1 =>
      match env.commitOutgoing sim1 u with
      | none => .evicted
      | some _ => .keep

/-- All pool transactions in the order `evict_transactions` walks them:
for every sender bucket, from highest to lowest fee (`iter().rev()`). -/
def senderWalk (st : MempoolState) : List Tx :=
  st.bySender.foldr (fun p acc => p.2.reverse ++ acc) []

/-- `Mempool::evict_transactions`: collect the mined and the invalidated
transactions, then remove the mined ones followed by the evicted ones. -/
def evictTransactions {S : Type} (env : Env S) (st : MempoolState) : MempoolState :=
  let height := env.blockNumber + 1
  let all := senderWalk st
  let txsMined := all.filter (fun u => evictMark env height u = .mined)
  let txsEvicted := all.filter (fun u => evictMark env height u = .evicted)
  let st1 := txsMined.foldl removeTransaction st
  txsEvicted.foldl removeTransaction st1

/-- The collection phase of `restore_transactions` (source lines 644-693):
from the reverted blocks' transactions, keep those valid at the next height
and not in the new chain's validity window whose incoming side applies to a
fresh scoped write-transaction (opened per transaction in the source), grouped
by sender into fee-sorted sets. -/
def collectRestorable {S : Type} (env : Env S) (height : Nat) (blocks : List (List Tx)) :
    List (Nat × List Tx) :=
  (blocks.foldr (· ++ ·) []).foldl
    (fun acc tx =>
      if ¬ isValidAt tx height = true then acc
      else if env.inValidityWindow (fingerprint tx) = true then acc
      else
        match incomingSim env tx with
        | none => acc
        | some _ => bucketInsert tx.sender tx acc)
    []

/-- Record one restored transaction as added in a merge result. -/
def consAdded {S : Type} (u : Tx) (p : S × Nat × List Tx × List Tx) :
    S × Nat × List Tx × List Tx :=
  (p.1, p.2.1, u :: p.2.2.1, p.2.2.2)

/-- Record one existing transaction as marked for removal in a merge
result. -/
def consMergeRemoved {S : Type} (u : Tx) (p : S × Nat × List Tx × List Tx) :
    S × Nat × List Tx × List Tx :=
  (p.1, p.2.1, p.2.2.1, u :: p.2.2.2)

/-- `Mempool::merge_transactions`: two-pointer descent over the existing and
the restored sets of one sender, both in fee-descending order, with a shared
simulation state and the `TRANSACTIONS_PER_SENDER_MAX` counter.  Returns the
simulation state, the final count, the transactions to add and the
transactions to remove. -/
def mergeTransactions {S : Type} (env : Env S) :
    List Tx → List Tx → S → Nat → S × Nat × List Tx × List Tx
  | [], [], sim, n => (sim, n, [], [])
  | [], u :: newR, sim, n =>
    if n < TRANSACTIONS_PER_SENDER_MAX then
      match env.commitOutgoing sim u with
      | some sim' => consAdded u (mergeTransactions env [] newR sim' (n + 1))
      | none => mergeTransactions env [] newR sim n
    else mergeTransactions env [] newR sim n
  | o :: oldR, [], sim, n =>
    if n < TRANSACTIONS_PER_SENDER_MAX then
      match env.commitOutgoing sim o with
      | some sim' => mergeTransactions env oldR [] sim' (n + 1)
      | none => consMergeRemoved o (mergeTransactions env oldR [] sim n)
    else consMergeRemoved o (mergeTransactions env oldR [] sim n)
  | o :: oldR, u :: newR, sim, n =>
    if txCmp u o = .gt then
      if n < TRANSACTIONS_PER_SENDER_MAX then
        match env.commitOutgoing sim u with
        | some sim' => consAdded u (mergeTransactions env (o :: oldR) newR sim' (n + 1))
        | none => mergeTransactions env (o :: oldR) newR sim n
      else mergeTransactions env (o :: oldR) newR sim n
    else
      if n < TRANSACTIONS_PER_SENDER_MAX then
        match env.commitOutgoing sim o with
        | some sim' => mergeTransactions env oldR (u :: newR) sim' (n + 1)
        | none => consMergeRemoved o (mergeTransactions env oldR (u :: newR) sim n)
      else consMergeRemoved o (mergeTransactions env oldR (u :: newR) sim n)
  termination_by oldL newL _ _ => oldL.length + newL.length

/-- One sender's merge step of `restore_transactions` (source lines 702-729):
merge the restored set with the sender's existing pool entries, apply the
additions, then the removals. -/
def restoreStep {S : Type} (env : Env S) (acc : S × MempoolState) (p : Nat × List Tx) :
    S × MempoolState :=
  let existing := (lookupA p.1 acc.2.bySender).getD []
  let res := mergeTransactions env existing.reverse p.2.reverse acc.1 0
  let st1 := res.2.2.1.foldl (fun s u => addTransaction s (fingerprint u) u) acc.2
  let st2 := res.2.2.2.foldl removeTransaction st1
  (res.1, st2)

/-- `Mempool::restore_transactions(reverted_blocks)`: collect the restorable
transactions per sender, merge each sender's set into the pool under one
shared scoped write-transaction, then evict the globally lowest-fee
transactions while the pool exceeds `SIZE_MAX`. -/
def restoreTransactions {S : Type} (env : Env S) (st : MempoolState)
    (blocks : List (List Tx)) : MempoolState :=
  let height := env.blockNumber + 1
  let restored := collectRestorable env height blocks
  let st1 := (restored.foldl (restoreStep env) (env.freshSim, st)).2
  if SIZE_MAX < st1.sortedFee.length then
    (st1.sortedFee.take (st1.sortedFee.length - SIZE_MAX)).foldl removeTransaction st1
  else st1

/-- Modelled from the spec: 32-bit right rotation for SHA-256 (the hash
subsystem's implementation is not among the given sources; only its test
vector is, in `src/hash/tests/mod.rs`). -/
def rotr32 (n x : Nat) : Nat := ((x >>> n) ||| (x <<< (32 - n))) % 4294967296

/-- SHA-256 choice function. -/
def ch32 (e f g : Nat) : Nat := (e &&& f) ^^^ ((e ^^^ 4294967295) &&& g)

/-- SHA-256 majority function. -/
def maj32 (a b c : Nat) : Nat := (a &&& b) ^^^ (a &&& c) ^^^ (b &&& c)

/-- SHA-256 big sigma 0. -/
def bsig0 (x : Nat) : Nat := rotr32 2 x ^^^ rotr32 13 x ^^^ rotr32 22 x

/-- SHA-256 big sigma 1. -/
def bsig1 (x : Nat) : Nat := rotr32 6 x ^^^ rotr32 11 x ^^^ rotr32 25 x

/-- SHA-256 small sigma 0. -/
def ssig0 (x : Nat) : Nat := rotr32 7 x ^^^ rotr32 18 x ^^^ (x >>> 3)

/-- SHA-256 small sigma 1. -/
def ssig1 (x : Nat) : Nat := rotr32 17 x ^^^ rotr32 19 x ^^^ (x >>> 10)

/-- SHA-256 round constants. -/
def sha256K : List Nat :=
  [1116352408, 1899447441, 3049323471, 3921009573, 961987163, 1508970993, 2453635748, 2870763221,
   3624381080, 310598401, 607225278, 1426881987, 1925078388, 2162078206, 2614888103, 3248222580,
   3835390401, 4022224774, 264347078, 604807628, 770255983, 1249150122, 1555081692, 1996064986,
   2554220882, 2821834349, 2952996808, 3210313671, 3336571891, 3584528711, 113926993, 338241895,
   666307205, 773529912, 1294757372, 1396182291, 1695183700, 1986661051, 2177026350, 2456956037,
   2730485921, 2820302411, 3259730800, 3345764771, 3516065817, 3600352804, 4094571909, 275423344,
   430227734, 506948616, 659060556, 883997877, 958139571, 1322822218, 1537002063, 1747873779,
   1955562222, 2024104815, 2227730452, 2361852424, 2428436474, 2756734187, 3204031479, 3329325298]

/-- SHA-256 initial state. -/
def sha256H0 : List Nat :=
  [1779033703, 3144134277, 1013904242, 2773480762,
   1359893119, 2600822924, 528734635, 1541459225]

/-- Big-endian byte decomposition, `n` bytes. -/
def beBytes (n v : Nat) : List Nat :=
  (List.range n).map (fun i => (v >>> (8 * (n - 1 - i))) % 256)

/-- SHA-256 message padding. -/
def sha256Pad (msg : List Nat) : List Nat :=
  let l := msg.length
  let padLen := (64 - ((l + 9) % 64)) % 64
  msg ++ [128] ++ List.replicate padLen 0 ++ beBytes 8 (8 * l)

/-- Big-endian word from bytes. -/
def toWord (b : List Nat) : Nat :=
  b.foldl (fun acc x => acc * 256 + x) 0

/-- The 16 words of one 64-byte block. -/
def blockWords (block : List Nat) : List Nat :=
  (List.range 16).map (fun i => toWord ((block.drop (4 * i)).take 4))

/-- One extension step of the SHA-256 message schedule. -/
def extendStep (w : List Nat) : List Nat :=
  let n := w.length
  w ++ [(ssig1 (w.getD (n - 2) 0) + w.getD (n - 7) 0 +
         ssig0 (w.getD (n - 15) 0) + w.getD (n - 16) 0) % 4294967296]

/-- The 64-word message schedule of one block. -/
def sha256Schedule (block : List Nat) : List Nat :=
  extendStep^[48] (blockWords block)

/-- One SHA-256 compression round. -/
def sha256Round (st : List Nat) (wk : Nat × Nat) : List Nat :=
  match st with
  | [a, b, c, d, e, f, g, hh] =>
    let t1 := (hh + bsig1 e + ch32 e f g + wk.2 + wk.1) % 4294967296
    let t2 := (bsig0 a + maj32 a b c) % 4294967296
    [(t1 + t2) % 4294967296, a, b, c, (d + t1) % 4294967296, e, f, g]
  | _ => st

/-- SHA-256 compression of one block into the running state. -/
def sha256Block (h : List Nat) (block : List Nat) : List Nat :=
  let w := sha256Schedule block
  let st := (w.zip sha256K).foldl sha256Round h
  List.zipWith (fun x y => (x + y) % 4294967296) h st

/-- Modelled from the spec: SHA-256 of a byte string (the one-shot
`Sha256Hasher::digest`). -/
def sha256 (msg : List Nat) : List Nat :=
  let padded := sha256Pad msg
  let blocks := (List.range (padded.length / 64)).map
    (fun i => (padded.drop (64 * i)).take 64)
  (blocks.foldl sha256Block sha256H0).foldr (fun w acc => beBytes 4 w ++ acc) []

/-- Modelled from the spec: the streaming hasher state (bytes written so
far).  `Sha256Hasher::default()` starts empty. -/
def sha256HasherDefault : List Nat := []

/-- Modelled from the spec: `Sha256Hasher::write` appends bytes to the
stream. -/
def sha256HasherWrite (h : List Nat) (bs : List Nat) : List Nat := h ++ bs

/-- Modelled from the spec: `Sha256Hasher::finish` digests every byte
written. -/
def sha256HasherFinish (h : List Nat) : List Nat := sha256 h

/-- Hex digit value of an ASCII character. -/
def hexVal (c : Char) : Nat := if 97 ≤ c.toNat then c.toNat - 87 else c.toNat - 48

/-- Bytes of a hex character string. -/
def hexBytes : List Char → List Nat
  | c1 :: c2 :: r => (16 * hexVal c1 + hexVal c2) :: hexBytes r
  | _ => []

/-- Bytes of a hex string literal. -/
def hexDecode (s : String) : List Nat := hexBytes s.toList

/-- ASCII bytes of a string literal. -/
def strBytes (s : String) : List Nat := s.toList.map Char.toNat

/-- Well-formedness of a sender or recipient bucket map under the key
function `key`: distinct addresses, and each bucket nonempty, strictly
fee-sorted, and holding only transactions of its address. -/
def bucketsWF (key : Tx → Nat) (m : List (Nat × List Tx)) : Prop :=
  (m.map Prod.fst).Nodup ∧
    ∀ p ∈ m, p.2 ≠ [] ∧ p.2.Pairwise txLt ∧ ∀ u ∈ p.2, key u = p.1

/-- Membership of a transaction in the bucket of key `k`. -/
def memBucket (m : List (Nat × List Tx)) (k : Nat) (u : Tx) : Prop :=
  ∃ b, lookupA k m = some b ∧ u ∈ b

/-- Structural well-formedness of a mempool state: distinct fingerprints in
`by_hash` keyed by their transaction's own fingerprint, a strictly fee-sorted
`sorted_fee` of nonempty-serialization transactions, well-formed sender and
recipient maps, and the three index-coherence membership equivalences. -/
structure InvS (st : MempoolState) : Prop where
  hashKeysNodup : (st.byHash.map Prod.fst).Nodup
  hashKeyFp : ∀ p ∈ st.byHash, p.1 = fingerprint p.2
  sortedSorted : st.sortedFee.Pairwise txLt
  posSize : ∀ u ∈ st.sortedFee, 0 < u.size
  senderWF : bucketsWF Tx.sender st.bySender
  recipientWF : bucketsWF Tx.recipient st.byRecipient
  memHash : ∀ u, u ∈ st.sortedFee ↔ lookupA (fingerprint u) st.byHash = some u
  memSender : ∀ u, u ∈ st.sortedFee ↔ memBucket st.bySender u.sender u
  memRecipient : ∀ u, u ∈ st.sortedFee ↔ memBucket st.byRecipient u.recipient u

/-- The full inter-operation invariant: structural well-formedness plus the
two size caps. -/
structure PoolInv (st : MempoolState) : Prop where
  struct : InvS st
  sizeCap : st.sortedFee.length ≤ SIZE_MAX
  senderCap : ∀ p ∈ st.bySender, p.2.length ≤ TRANSACTIONS_PER_SENDER_MAX

/-- Concatenation of all buckets of a bucket map. -/
def bucketsFlat (m : List (Nat × List Tx)) : List Tx :=
  m.foldr (fun p acc => p.2 ++ acc) []

/-- The claim-facing structural invariants of the specification: index
coherence with its converses, the cardinality identities, no empty buckets,
and the two caps. -/
def claimInvariants (st : MempoolState) : Prop :=
  (∀ p ∈ st.byHash, p.2 ∈ st.sortedFee ∧ memBucket st.bySender p.2.sender p.2 ∧
      memBucket st.byRecipient p.2.recipient p.2) ∧
  (∀ u ∈ st.sortedFee, (fingerprint u, u) ∈ st.byHash ∧
      memBucket st.bySender u.sender u ∧ memBucket st.byRecipient u.recipient u) ∧
  (∀ p ∈ st.bySender, ∀ u ∈ p.2, u ∈ st.sortedFee) ∧
  (∀ p ∈ st.byRecipient, ∀ u ∈ p.2, u ∈ st.sortedFee) ∧
  st.byHash.length = st.sortedFee.length ∧
  (st.bySender.map (fun p => p.2.length)).sum = st.sortedFee.length ∧
  (st.byRecipient.map (fun p => p.2.length)).sum = st.sortedFee.length ∧
  (∀ p ∈ st.bySender, p.2 ≠ []) ∧
  (∀ p ∈ st.byRecipient, p.2 ≠ []) ∧
  st.sortedFee.length ≤ SIZE_MAX ∧
  (∀ p ∈ st.bySender, p.2.length ≤ TRANSACTIONS_PER_SENDER_MAX)

/-- The empty mempool state (`Mempool::new`). -/
def emptyState : MempoolState := ⟨[], [], [], [], []⟩

/-- A small concrete environment over a unit simulation state, with
permissive oracles, used to instantiate theorems. -/
def unitEnv : Env Unit where
  freshSim := ()
  create := fun _ _ => some ()
  commitIncoming := fun _ _ => some ()
  commitOutgoing := fun _ _ => some ()
  revertOutgoing := fun _ _ => ()
  verifyOk := fun _ => true
  blockNumber := 0
  inValidityWindow := fun _ => false
  getAccount := fun _ => some ⟨0, 100⟩
  stakingAddr := 999
  minTxSize := 1
  acceptsTx := fun _ => true
  acceptsRecipientBalance := fun _ _ _ => true
  acceptsSenderBalance := fun _ _ _ => true
  filterLimit := 100

/-- A concrete sample transaction. -/
def txW : Tx := ⟨1, 2, 0, 0, 5, 5, 100, 0, 10, false⟩

/-- A concrete free transaction (fee 0, size 10) from sender 1, distinguished
by its `value` field. -/
def freeTx (i : Nat) : Tx := ⟨1, 2, 0, 0, i, 0, 10, 0, 10, false⟩

/-- A concrete non-free transaction (fee 20, size 10) from sender 1. -/
def paidTx : Tx := ⟨1, 3, 0, 0, 0, 20, 10, 0, 10, false⟩

/-- Push a list of transactions in order through `pushTransaction` over
`unitEnv`, collecting the return codes and the final state. -/
def pushSeq : List Tx → MempoolState → List ReturnCode × MempoolState
  | [], st => ([], st)
  | t :: r, st =>
    let p := pushTransaction unitEnv st t
    let q := pushSeq r p.2
    (p.1 :: q.1, q.2)

/-- Following the claim's words for C3 (for comparison with the source's
`freeQuotaHit`): the same counting loop run "from highest to lowest
fee-per-byte", i.e. over the reversed (descending) bucket. -/
def specFreeQuotaDescending (bucket : List Tx) : Bool :=
  freeQuotaHit bucket.reverse 0

/-- A pool holding ten free and one paid transaction of sender 1, built by
pushing them through the public pipeline. -/
def cexSt : MempoolState :=
  (pushSeq ((List.range 10).map freeTx ++ [paidTx]) emptyState).2

/-- Following the claim's words for C4 (for comparison with the source's
`getTransactionsForBlock`): the same walk run "in fee order from highest to
lowest fee", i.e. over the reversed (descending) `sorted_fee`. -/
def specGtfbDescending {S : Type} (env : Env S) (st : MempoolState) (maxSize : Nat) :
    List Tx :=
  gtfbWalk env maxSize st.sortedFee.reverse env.freshSim 0

/-- The block-building walk stripped of the staking-contract simulation, as
the amended C4 describes it: a greedy size-bounded scan in iteration order
that stops when the remaining budget is below the minimum transaction size. -/
def ascGreedy (minSize maxSize : Nat) : List Tx → Nat → List Tx
  | [], _ => []
  | u :: r, size =>
    if size + u.size ≤ maxSize then u :: ascGreedy minSize maxSize r (size + u.size)
    else if maxSize - size < minSize then []
    else ascGreedy minSize maxSize r size

/-- A concrete 60-byte transaction with fee-per-byte 1/6 from sender 3. -/
def txA : Tx := ⟨3, 4, 0, 0, 0, 10, 60, 0, 10, false⟩

/-- A concrete 60-byte transaction with fee-per-byte 2 from sender 5. -/
def txB : Tx := ⟨5, 6, 0, 0, 0, 120, 60, 0, 10, false⟩

/-- A pool holding `txA` and `txB`, built through the public pipeline. -/
def gtfbSt : MempoolState := (pushSeq [txA, txB] emptyState).2

/-- Following the claim's words for C5 (for comparison with the source's
`getTransactions`): up to `max_count` transactions taken "from the
highest-fee end" of the filtered fee ordering. -/
def specTop (st : MempoolState) (maxCount minNum minDen : Nat) : List Tx :=
  ((st.sortedFee.filter (fun u => minNum * u.size ≤ minDen * u.fee)).reverse).take maxCount

/-- Following the claim's words for C6 (for comparison with the source's
`evictTransactions`): walk one sender's transactions from highest to lowest
fee applying every account simulation to a single shared scoped
write-transaction, so each transaction is validated on top of the cumulative
effect of the kept higher-fee predecessors; returns the kept transactions. -/
def specEvictCumulative {S : Type} (env : Env S) (height : Nat) :
    List Tx → S → List Tx
  | [], _ => []
  | u :: r, sim =>
    if ¬ isValidAt u height = true then specEvictCumulative env height r sim
    else if env.inValidityWindow (fingerprint u) = true then
      specEvictCumulative env height r sim
    else
      match (if u.contractCreation then env.create sim u else env.commitIncoming sim u) with
      | none => specEvictCumulative env height r sim
      | some sim1 =>
        match env.commitOutgoing sim1 u with
        | none => specEvictCumulative env height r sim
        | some sim2 => u :: specEvictCumulative env height r sim2

/-- An environment whose scoped write-transaction state is the remaining
balance of sender 1: an outgoing side applies only while the balance covers
value plus fee.  The chain balance is 10. -/
def balEnv : Env Nat where
  freshSim := 10
  create := fun sim _ => some sim
  commitIncoming := fun sim _ => some sim
  commitOutgoing := fun sim u =>
    if u.value + u.fee ≤ sim then some (sim - (u.value + u.fee)) else none
  revertOutgoing := fun sim u => sim + u.value + u.fee
  verifyOk := fun _ => true
  blockNumber := 0
  inValidityWindow := fun _ => false
  getAccount := fun _ => some ⟨0, 100⟩
  stakingAddr := 999
  minTxSize := 1
  acceptsTx := fun _ => true
  acceptsRecipientBalance := fun _ _ _ => true
  acceptsSenderBalance := fun _ _ _ => true
  filterLimit := 100

/-- A transaction of sender 1 spending the whole balance of `balEnv`. -/
def e1 : Tx := ⟨1, 2, 0, 0, 10, 0, 10, 0, 10, false⟩

/-- A second such transaction, to a different recipient. -/
def e2 : Tx := ⟨1, 3, 0, 0, 10, 0, 10, 0, 10, false⟩

/-- A pool holding `e1` and `e2`, built through the public pipeline. -/
def evSt : MempoolState := (pushSeq [e1, e2] emptyState).2

/-- An environment whose recipient balance policy requires a post-balance of
at least 5, over a chain where every account holds balance 0. -/
def rbEnv : Env Unit where
  freshSim := ()
  create := fun _ _ => some ()
  commitIncoming := fun _ _ => some ()
  commitOutgoing := fun _ _ => some ()
  revertOutgoing := fun _ _ => ()
  verifyOk := fun _ => true
  blockNumber := 0
  inValidityWindow := fun _ => false
  getAccount := fun _ => some ⟨0, 0⟩
  stakingAddr := 999
  minTxSize := 1
  acceptsTx := fun _ => true
  acceptsRecipientBalance := fun _ _ new => 5 ≤ new
  acceptsSenderBalance := fun _ _ _ => true
  filterLimit := 100

/-- A transaction moving value 10 to recipient 2. -/
def cbTx : Tx := ⟨1, 2, 0, 0, 10, 5, 100, 0, 10, false⟩

/-- The `i`-th filler transaction: fee-per-byte 5, its own sender. -/
def fillTx (i : Nat) : Tx := ⟨100 + i, 2, 0, 0, 0, 50, 10, 0, 10, false⟩

/-- `SIZE_MAX` filler transactions with distinct senders. -/
def fillers : List Tx := (List.range' 0 SIZE_MAX).map fillTx

/-- A transaction of fee 0 (fee-per-byte 0), below every filler. -/
def tLow : Tx := ⟨1, 2, 0, 0, 0, 0, 10, 0, 10, false⟩

/-- A pool filled to `SIZE_MAX` with the filler transactions. -/
def bigS : MempoolState :=
  ⟨fillers.map (fun u => (fingerprint u, u)),
   fillers.map (fun u => (u.sender, [u])),
   [(2, fillers)],
   fillers,
   []⟩

/-- Total serialized size of a transaction list. -/
def sumSizes (l : List Tx) : Nat := (l.map Tx.size).sum

theorem fingerprint_injective {t u : Tx} (h : fingerprint t = fingerprint u) : t = u := by
  unfold fingerprint at h
  simp only [Nat.pair_eq_pair] at h
  obtain ⟨h1, h2, h3, h4, h5, h6, h7, h8, h9, h10⟩ := h
  have hc : t.contractCreation = u.contractCreation := by
    cases hcc : t.contractCreation <;> cases hcc' : u.contractCreation <;> simp_all [Bool.toNat]
  cases t; cases u; simp_all

/-- Characterization of the strict comparator order. -/
theorem txLt_iff {t u : Tx} : txLt t u ↔
    t.fee * u.size < u.fee * t.size ∨
      (t.fee * u.size = u.fee * t.size ∧ fingerprint t < fingerprint u) := by
  unfold txLt txCmp
  split_ifs <;> simp_all <;> omega

/-- The comparator is reflexive at `eq`. -/
theorem txCmp_self (t : Tx) : txCmp t t = .eq := by
  unfold txCmp; simp

/-- Comparator equality is equality. -/
theorem txCmp_eq_iff {t u : Tx} : txCmp t u = .eq ↔ t = u := by
  constructor
  · intro h
    unfold txCmp at h
    split_ifs at h with h1 h2 h3 h4 <;> simp at h
    exact fingerprint_injective (by omega)
  · rintro rfl
    exact txCmp_self t

/-- Comparator `gt` is the reverse strict order. -/
theorem txCmp_gt_iff {t u : Tx} : txCmp t u = .gt ↔ txLt u t := by
  unfold txLt txCmp
  split_ifs <;> simp_all <;> omega

/-- The strict order is irreflexive. -/
theorem txLt_irrefl (t : Tx) : ¬ txLt t t := by
  unfold txLt
  rw [txCmp_self]
  simp

/-- Strictly ordered transactions are distinct. -/
theorem txLt_ne {t u : Tx} (h : txLt t u) : t ≠ u := by
  rintro rfl
  exact txLt_irrefl t h

/-- Transitivity of the strict order, for transactions of positive
serialized size. -/
theorem txLt_trans {t u v : Tx} (ht : 0 < t.size) (hu : 0 < u.size) (hv : 0 < v.size)
    (h1 : txLt t u) (h2 : txLt u v) : txLt t v := by
  rw [txLt_iff] at h1 h2 ⊢
  rcases h1 with h1 | ⟨h1e, h1f⟩ <;> rcases h2 with h2 | ⟨h2e, h2f⟩
  · left
    have k1 : t.fee * v.size * u.size < v.fee * t.size * u.size := by
      calc t.fee * v.size * u.size = (t.fee * u.size) * v.size := by ring
        _ < (u.fee * t.size) * v.size := by
            exact (mul_lt_mul_right hv).mpr h1
        _ = (u.fee * v.size) * t.size := by ring
        _ < (v.fee * u.size) * t.size := by
            exact (mul_lt_mul_right ht).mpr h2
        _ = v.fee * t.size * u.size := by ring
    exact lt_of_mul_lt_mul_right k1 (Nat.zero_le _)
  · left
    have k1 : t.fee * v.size * u.size < v.fee * t.size * u.size := by
      calc t.fee * v.size * u.size = (t.fee * u.size) * v.size := by ring
        _ < (u.fee * t.size) * v.size := by
            exact (mul_lt_mul_right hv).mpr h1
        _ = (u.fee * v.size) * t.size := by ring
        _ = (v.fee * u.size) * t.size := by rw [h2e]
        _ = v.fee * t.size * u.size := by ring
    exact lt_of_mul_lt_mul_right k1 (Nat.zero_le _)
  · left
    have k1 : t.fee * v.size * u.size < v.fee * t.size * u.size := by
      calc t.fee * v.size * u.size = (t.fee * u.size) * v.size := by ring
        _ = (u.fee * t.size) * v.size := by rw [h1e]
        _ = (u.fee * v.size) * t.size := by ring
        _ < (v.fee * u.size) * t.size := by
            exact (mul_lt_mul_right ht).mpr h2
        _ = v.fee * t.size * u.size := by ring
    exact lt_of_mul_lt_mul_right k1 (Nat.zero_le _)
  · right
    constructor
    · have k1 : t.fee * v.size * u.size = v.fee * t.size * u.size := by
        calc t.fee * v.size * u.size = (t.fee * u.size) * v.size := by ring
          _ = (u.fee * t.size) * v.size := by rw [h1e]
          _ = (u.fee * v.size) * t.size := by ring
          _ = (v.fee * u.size) * t.size := by rw [h2e]
          _ = v.fee * t.size * u.size := by ring
      exact Nat.eq_of_mul_eq_mul_right hu k1
    · exact Nat.lt_trans h1f h2f

/-- A pairwise strictly ordered list has no duplicates. -/
theorem pairwise_txLt_nodup {l : List Tx} (h : l.Pairwise txLt) : l.Nodup :=
  h.imp txLt_ne

/-- Lookup after inserting the same key. -/
theorem lookupA_insertA_self {α : Type} (k : Nat) (v : α) (m : List (Nat × α)) :
    lookupA k (insertA k v m) = some v := by
  induction m with
  | nil => simp [insertA, lookupA]
  | cons p r ih =>
    obtain ⟨k', v'⟩ := p
    by_cases h : k' = k <;> simp [insertA, lookupA, h, ih]

/-- Lookup after inserting a different key. -/
theorem lookupA_insertA_ne {α : Type} {k k' : Nat} (h : k' ≠ k) (v : α) (m : List (Nat × α)) :
    lookupA k' (insertA k v m) = lookupA k' m := by
  have h' : k ≠ k' := Ne.symm h
  induction m with
  | nil => simp [insertA, lookupA, h']
  | cons p r ih =>
    obtain ⟨k'', v''⟩ := p
    by_cases h2 : k'' = k
    · subst h2
      simp [insertA, lookupA, h']
    · simp [insertA, lookupA, h2, ih]

/-- Failed lookup means the key is absent. -/
theorem lookupA_eq_none_iff {α : Type} {k : Nat} {m : List (Nat × α)} :
    lookupA k m = none ↔ k ∉ m.map Prod.fst := by
  induction m with
  | nil => simp [lookupA]
  | cons p r ih =>
    obtain ⟨k', v'⟩ := p
    by_cases h : k' = k
    · subst h
      simp [lookupA]
    · simp [lookupA, h, ih, Ne.symm h]

/-- Lookup after erasing the same key, when keys are unrepeated. -/
theorem lookupA_eraseA_self {α : Type} {m : List (Nat × α)} (k : Nat)
    (hn : (m.map Prod.fst).Nodup) : lookupA k (eraseA k m) = none := by
  rw [lookupA_eq_none_iff]
  induction m with
  | nil => simp [eraseA]
  | cons p r ih =>
    obtain ⟨k', v'⟩ := p
    simp only [List.map_cons, List.nodup_cons] at hn
    by_cases h : k' = k
    · subst h
      simpa [eraseA] using hn.1
    · simp only [eraseA, if_neg h, List.map_cons, List.mem_cons]
      push_neg
      exact ⟨Ne.symm h, ih hn.2⟩

/-- Lookup after erasing a different key. -/
theorem lookupA_eraseA_ne {α : Type} {k k' : Nat} (h : k' ≠ k) (m : List (Nat × α)) :
    lookupA k' (eraseA k m) = lookupA k' m := by
  have h' : k ≠ k' := Ne.symm h
  induction m with
  | nil => simp [eraseA]
  | cons p r ih =>
    obtain ⟨k'', v''⟩ := p
    by_cases h2 : k'' = k
    · subst h2
      simp [eraseA, lookupA, h']
    · simp [eraseA, lookupA, h2, ih]

/-- A successful lookup is a membership. -/
theorem lookupA_mem {α : Type} {k : Nat} {v : α} {m : List (Nat × α)}
    (h : lookupA k m = some v) : (k, v) ∈ m := by
  induction m with
  | nil => simp [lookupA] at h
  | cons p r ih =>
    obtain ⟨k', v'⟩ := p
    by_cases h2 : k' = k
    · subst h2
      simp only [lookupA, if_pos rfl, Option.some.injEq] at h
      simp at h
      subst h
      exact List.mem_cons_self _ _
    · simp only [lookupA, if_neg h2] at h
      exact List.mem_cons_of_mem _ (ih h)

/-- A membership is found by lookup when keys are unrepeated. -/
theorem mem_lookupA {α : Type} {k : Nat} {v : α} {m : List (Nat × α)}
    (hn : (m.map Prod.fst).Nodup) (h : (k, v) ∈ m) : lookupA k m = some v := by
  induction m with
  | nil => simp at h
  | cons p r ih =>
    obtain ⟨k', v'⟩ := p
    simp only [List.map_cons, List.nodup_cons] at hn
    rcases List.mem_cons.mp h with h1 | h1
    · simp only [Prod.mk.injEq] at h1
      obtain ⟨rfl, rfl⟩ := h1
      simp [lookupA]
    · have hk : ¬ k' = k := by
        intro hh
        subst hh
        exact hn.1 (by simpa using List.mem_map_of_mem Prod.fst h1)
      simp only [lookupA, if_neg hk]
      exact ih hn.2 h1

/-- Keys after inserting an absent key. -/
theorem insertA_keys_of_not_mem {α : Type} {k : Nat} {m : List (Nat × α)} (v : α)
    (h : k ∉ m.map Prod.fst) : (insertA k v m).map Prod.fst = m.map Prod.fst ++ [k] := by
  induction m with
  | nil => simp [insertA]
  | cons p r ih =>
    obtain ⟨k', v'⟩ := p
    simp only [List.map_cons, List.mem_cons] at h
    push_neg at h
    simp only [insertA, if_neg (Ne.symm h.1), List.map_cons]
    rw [ih h.2]
    simp

/-- Keys after inserting a present key. -/
theorem insertA_keys_of_mem {α : Type} {k : Nat} {m : List (Nat × α)} (v : α)
    (h : k ∈ m.map Prod.fst) : (insertA k v m).map Prod.fst = m.map Prod.fst := by
  induction m with
  | nil => simp at h
  | cons p r ih =>
    obtain ⟨k', v'⟩ := p
    by_cases h2 : k' = k
    · subst h2
      simp [insertA]
    · simp only [List.map_cons, List.mem_cons] at h
      rcases h with h | h
      · exact absurd h.symm h2
      · simp only [insertA, if_neg h2, List.map_cons]
        rw [ih h]

/-- Insertion preserves key distinctness. -/
theorem insertA_keys_nodup {α : Type} {k : Nat} {m : List (Nat × α)} (v : α)
    (hn : (m.map Prod.fst).Nodup) : ((insertA k v m).map Prod.fst).Nodup := by
  by_cases hmem : k ∈ m.map Prod.fst
  · rw [insertA_keys_of_mem v hmem]
    exact hn
  · rw [insertA_keys_of_not_mem v hmem]
    simp only [List.nodup_append]
    exact ⟨hn, List.nodup_singleton k, by simpa using hmem⟩

/-- Inserted entries are the new pair or old entries. -/
theorem insertA_entries {α : Type} {k : Nat} {v : α} {m : List (Nat × α)} {p : Nat × α}
    (h : p ∈ insertA k v m) : p = (k, v) ∨ p ∈ m := by
  induction m with
  | nil => simpa [insertA] using h
  | cons q r ih =>
    obtain ⟨k', v'⟩ := q
    by_cases h2 : k' = k
    · subst h2
      rcases List.mem_cons.mp (by simpa [insertA] using h) with h3 | h3
      · left; exact h3
      · right; exact List.mem_cons_of_mem _ h3
    · rcases List.mem_cons.mp (by simpa [insertA, h2] using h) with h3 | h3
      · right; simp [h3]
      · rcases ih h3 with h4 | h4
        · left; exact h4
        · right; exact List.mem_cons_of_mem _ h4

/-- Erasure keeps a sublist of the entries. -/
theorem eraseA_sublist {α : Type} (k : Nat) (m : List (Nat × α)) :
    (eraseA k m).Sublist m := by
  induction m with
  | nil => simp [eraseA]
  | cons p r ih =>
    obtain ⟨k', v'⟩ := p
    by_cases h : k' = k
    · simpa [eraseA, h] using List.sublist_cons_self _ _
    · simpa [eraseA, h] using ih

/-- Erasure keeps a sublist of the keys. -/
theorem eraseA_keys_sublist {α : Type} (k : Nat) (m : List (Nat × α)) :
    ((eraseA k m).map Prod.fst).Sublist (m.map Prod.fst) :=
  (eraseA_sublist k m).map Prod.fst

/-- Membership after a sorted-set insertion. -/
theorem mem_setInsert {t u : Tx} {l : List Tx} :
    u ∈ setInsert t l ↔ u = t ∨ u ∈ l := by
  induction l with
  | nil => simp [setInsert]
  | cons w r ih =>
    unfold setInsert
    rcases hc : txCmp t w with _ | _ | _
    · simp
    · have hw : t = w := txCmp_eq_iff.mp hc
      subst hw
      simp only [List.mem_cons]
      tauto
    · simp only [List.mem_cons, ih]
      tauto

/-- A sorted-set insertion never yields the empty list. -/
theorem setInsert_ne_nil (t : Tx) (l : List Tx) : setInsert t l ≠ [] := by
  cases l with
  | nil => simp [setInsert]
  | cons w r =>
    unfold setInsert
    rcases hc : txCmp t w with _ | _ | _ <;> simp

/-- Length bound of a sorted-set insertion. -/
theorem setInsert_length_le (t : Tx) (l : List Tx) :
    (setInsert t l).length ≤ l.length + 1 := by
  induction l with
  | nil => simp [setInsert]
  | cons w r ih =>
    unfold setInsert
    rcases hc : txCmp t w with _ | _ | _ <;> simp <;> omega

/-- Inserting an absent element grows the set by one. -/
theorem setInsert_length_of_not_mem {t : Tx} {l : List Tx} (h : t ∉ l) :
    (setInsert t l).length = l.length + 1 := by
  induction l with
  | nil => simp [setInsert]
  | cons w r ih =>
    simp only [List.mem_cons] at h
    push_neg at h
    unfold setInsert
    rcases hc : txCmp t w with _ | _ | _
    · simp
    · exact absurd (txCmp_eq_iff.mp hc) h.1
    · simp only [List.length_cons]
      rw [ih h.2]

/-- Inserting into a strictly sorted list of positive-size transactions
keeps it strictly sorted, when the new transaction also has positive size. -/
theorem setInsert_pairwise {t : Tx} {l : List Tx} (ht : 0 < t.size)
    (hpos : ∀ u ∈ l, 0 < u.size) (hl : l.Pairwise txLt) :
    (setInsert t l).Pairwise txLt := by
  induction l with
  | nil => simp [setInsert]
  | cons w r ih =>
    simp only [List.pairwise_cons] at hl
    unfold setInsert
    rcases hc : txCmp t w with _ | _ | _
    · refine List.Pairwise.cons ?_ (List.Pairwise.cons hl.1 hl.2)
      intro v hv
      rcases List.mem_cons.mp hv with rfl | hv
      · exact hc
      · exact txLt_trans ht (hpos w (by simp)) (hpos v (by simp [hv])) hc (hl.1 v hv)
    · exact List.Pairwise.cons hl.1 hl.2
    · refine List.Pairwise.cons ?_ (ih (fun u hu => hpos u (by simp [hu])) hl.2)
      intro v hv
      rcases mem_setInsert.mp hv with rfl | hv
      · exact txCmp_gt_iff.mp hc
      · exact hl.1 v hv

/-- A sorted-set erasure is a sublist. -/
theorem setErase_sublist (t : Tx) (l : List Tx) : (setErase t l).Sublist l := by
  induction l with
  | nil => simp [setErase]
  | cons w r ih =>
    unfold setErase
    rcases hc : txCmp t w with _ | _ | _
    · simpa using ih
    · exact List.sublist_cons_self _ _
    · simpa using ih

/-- Erasing an absent element leaves the set unchanged. -/
theorem setErase_of_not_mem {t : Tx} {l : List Tx} (h : t ∉ l) : setErase t l = l := by
  induction l with
  | nil => simp [setErase]
  | cons w r ih =>
    simp only [List.mem_cons] at h
    push_neg at h
    unfold setErase
    rcases hc : txCmp t w with _ | _ | _
    · rw [ih h.2]
    · exact absurd (txCmp_eq_iff.mp hc) h.1
    · rw [ih h.2]

/-- Erasing a present element shrinks the set by one. -/
theorem setErase_length_of_mem {t : Tx} {l : List Tx} (h : t ∈ l) :
    (setErase t l).length + 1 = l.length := by
  induction l with
  | nil => simp at h
  | cons w r ih =>
    unfold setErase
    rcases hc : txCmp t w with _ | _ | _
    · have : t ≠ w := fun hh => by
        subst hh
        rw [txCmp_self] at hc
        cases hc
      rcases List.mem_cons.mp h with rfl | hmem
      · exact absurd rfl this
      · simp only [List.length_cons]
        rw [ih hmem]
    · simp
    · have : t ≠ w := fun hh => by
        subst hh
        rw [txCmp_self] at hc
        cases hc
      rcases List.mem_cons.mp h with rfl | hmem
      · exact absurd rfl this
      · simp only [List.length_cons]
        rw [ih hmem]

/-- Membership after a sorted-set erasure, for lists without duplicates. -/
theorem mem_setErase {t u : Tx} {l : List Tx} (hnd : l.Nodup) :
    u ∈ setErase t l ↔ u ∈ l ∧ u ≠ t := by
  induction l with
  | nil => simp [setErase]
  | cons w r ih =>
    simp only [List.nodup_cons] at hnd
    unfold setErase
    rcases hc : txCmp t w with _ | _ | _
    · have hne : t ≠ w := fun hh => by
        subst hh
        rw [txCmp_self] at hc
        cases hc
      simp only [List.mem_cons, ih hnd.2]
      constructor
      · rintro (rfl | h)
        · exact ⟨Or.inl rfl, Ne.symm hne⟩
        · exact ⟨Or.inr h.1, h.2⟩
      · rintro ⟨rfl | h, hne2⟩
        · exact Or.inl rfl
        · exact Or.inr ⟨h, hne2⟩
    · have : t = w := txCmp_eq_iff.mp hc
      subst this
      simp only [List.mem_cons]
      constructor
      · intro h
        exact ⟨Or.inr h, fun hh => hnd.1 (hh ▸ h)⟩
      · rintro ⟨rfl | h, hne2⟩
        · exact absurd rfl hne2
        · exact h
    · have hne : t ≠ w := fun hh => by
        subst hh
        rw [txCmp_self] at hc
        cases hc
      simp only [List.mem_cons, ih hnd.2]
      constructor
      · rintro (rfl | h)
        · exact ⟨Or.inl rfl, Ne.symm hne⟩
        · exact ⟨Or.inr h.1, h.2⟩
      · rintro ⟨rfl | h, hne2⟩
        · exact Or.inl rfl
        · exact Or.inr ⟨h, hne2⟩

/-- Keys after a bucket insertion with a present key. -/
theorem bucketInsert_keys_of_mem {k : Nat} {m : List (Nat × List Tx)} (t : Tx)
    (h : k ∈ m.map Prod.fst) : (bucketInsert k t m).map Prod.fst = m.map Prod.fst := by
  induction m with
  | nil => simp at h
  | cons p r ih =>
    obtain ⟨k', b⟩ := p
    by_cases h2 : k' = k
    · subst h2
      simp [bucketInsert]
    · simp only [List.map_cons, List.mem_cons] at h
      rcases h with h | h
      · exact absurd h.symm h2
      · simp only [bucketInsert, if_neg h2, List.map_cons]
        rw [ih h]

/-- Keys after a bucket insertion with an absent key. -/
theorem bucketInsert_keys_of_not_mem {k : Nat} {m : List (Nat × List Tx)} (t : Tx)
    (h : k ∉ m.map Prod.fst) :
    (bucketInsert k t m).map Prod.fst = m.map Prod.fst ++ [k] := by
  induction m with
  | nil => simp [bucketInsert]
  | cons p r ih =>
    obtain ⟨k', b⟩ := p
    simp only [List.map_cons, List.mem_cons] at h
    push_neg at h
    simp only [bucketInsert, if_neg (Ne.symm h.1), List.map_cons]
    rw [ih h.2]
    simp

/-- Bucket insertion preserves key distinctness. -/
theorem bucketInsert_keys_nodup {k : Nat} {m : List (Nat × List Tx)} (t : Tx)
    (hn : (m.map Prod.fst).Nodup) : ((bucketInsert k t m).map Prod.fst).Nodup := by
  by_cases hmem : k ∈ m.map Prod.fst
  · rw [bucketInsert_keys_of_mem t hmem]
    exact hn
  · rw [bucketInsert_keys_of_not_mem t hmem]
    simp only [List.nodup_append]
    exact ⟨hn, List.nodup_singleton k, by simpa using hmem⟩

/-- Lookup of the inserted bucket. -/
theorem lookupA_bucketInsert_self (k : Nat) (t : Tx) (m : List (Nat × List Tx)) :
    lookupA k (bucketInsert k t m) = some (setInsert t ((lookupA k m).getD [])) := by
  induction m with
  | nil => simp [bucketInsert, lookupA, setInsert]
  | cons p r ih =>
    obtain ⟨k', b⟩ := p
    by_cases h2 : k' = k
    · subst h2
      simp [bucketInsert, lookupA]
    · simp [bucketInsert, lookupA, h2, ih]

/-- Lookup of an untouched bucket after insertion. -/
theorem lookupA_bucketInsert_ne {k k' : Nat} (h : k' ≠ k) (t : Tx)
    (m : List (Nat × List Tx)) : lookupA k' (bucketInsert k t m) = lookupA k' m := by
  have h' : k ≠ k' := Ne.symm h
  induction m with
  | nil => simp [bucketInsert, lookupA, h']
  | cons p r ih =>
    obtain ⟨k'', b⟩ := p
    by_cases h2 : k'' = k
    · subst h2
      simp [bucketInsert, lookupA, h']
    · simp [bucketInsert, lookupA, h2, ih]

/-- Entries after a bucket insertion. -/
theorem bucketInsert_entries {k : Nat} {t : Tx} {m : List (Nat × List Tx)}
    {p : Nat × List Tx} (h : p ∈ bucketInsert k t m) :
    p ∈ m ∨ p = (k, setInsert t ((lookupA k m).getD [])) := by
  induction m with
  | nil =>
    right
    simpa [bucketInsert, lookupA] using h
  | cons q r ih =>
    obtain ⟨k', b⟩ := q
    by_cases h2 : k' = k
    · subst h2
      rcases List.mem_cons.mp (by simpa [bucketInsert] using h) with h3 | h3
      · right
        simp [lookupA, h3]
      · left
        exact List.mem_cons_of_mem _ h3
    · rcases List.mem_cons.mp (by simpa [bucketInsert, h2] using h) with h3 | h3
      · left
        simp [h3]
      · rcases ih h3 with h4 | h4
        · left
          exact List.mem_cons_of_mem _ h4
        · right
          simpa [lookupA, h2] using h4

/-- Bucket erasure keeps a subset of the keys. -/
theorem bucketErase_keys_sublist (k : Nat) (t : Tx) (m : List (Nat × List Tx)) :
    ((bucketErase k t m).map Prod.fst).Sublist (m.map Prod.fst) := by
  induction m with
  | nil => simp [bucketErase]
  | cons p r ih =>
    obtain ⟨k', b⟩ := p
    by_cases h2 : k' = k
    · subst h2
      by_cases h3 : (setErase t b).isEmpty
      · simpa [bucketErase, h3] using List.sublist_cons_self _ _
      · simp [bucketErase, h3]
    · simpa [bucketErase, h2] using ih

/-- Lookup of the erased bucket, when keys are unrepeated. -/
theorem lookupA_bucketErase_self {k : Nat} {t : Tx} {m : List (Nat × List Tx)}
    (hn : (m.map Prod.fst).Nodup) :
    lookupA k (bucketErase k t m) =
      match lookupA k m with
      | none => none
      | some b => if (setErase t b).isEmpty then none else some (setErase t b) := by
  induction m with
  | nil => simp [bucketErase, lookupA]
  | cons p r ih =>
    obtain ⟨k', b⟩ := p
    simp only [List.map_cons, List.nodup_cons] at hn
    by_cases h2 : k' = k
    · subst h2
      by_cases h3 : (setErase t b).isEmpty
      · have hr := lookupA_eq_none_iff.mpr hn.1
        simp [bucketErase, lookupA, h3, hr]
      · simp [bucketErase, lookupA, h3]
    · simp only [bucketErase, if_neg h2, lookupA, if_neg h2]
      exact ih hn.2

/-- Lookup of an untouched bucket after erasure. -/
theorem lookupA_bucketErase_ne {k k' : Nat} (h : k' ≠ k) (t : Tx)
    (m : List (Nat × List Tx)) : lookupA k' (bucketErase k t m) = lookupA k' m := by
  have h' : k ≠ k' := Ne.symm h
  induction m with
  | nil => simp [bucketErase]
  | cons p r ih =>
    obtain ⟨k'', b⟩ := p
    by_cases h2 : k'' = k
    · subst h2
      by_cases h3 : (setErase t b).isEmpty <;> simp [bucketErase, lookupA, h', h3]
    · simp [bucketErase, lookupA, h2, ih]

/-- Entries after a bucket erasure. -/
theorem bucketErase_entries {k : Nat} {t : Tx} {m : List (Nat × List Tx)}
    {p : Nat × List Tx} (h : p ∈ bucketErase k t m) :
    p ∈ m ∨ ∃ b, lookupA k m = some b ∧ p = (k, setErase t b) ∧
      ¬ (setErase t b).isEmpty = true := by
  induction m with
  | nil => simp [bucketErase] at h
  | cons q r ih =>
    obtain ⟨k', b⟩ := q
    by_cases h2 : k' = k
    · subst h2
      by_cases h3 : (setErase t b).isEmpty
      · left
        exact List.mem_cons_of_mem _ (by simpa [bucketErase, h3] using h)
      · rcases List.mem_cons.mp (by simpa [bucketErase, h3] using h) with h4 | h4
        · right
          exact ⟨b, by simp [lookupA], h4, h3⟩
        · left
          exact List.mem_cons_of_mem _ h4
    · rcases List.mem_cons.mp (by simpa [bucketErase, h2] using h) with h4 | h4
      · left
        simp [h4]
      · rcases ih h4 with h5 | ⟨b', hb1, hb2, hb3⟩
        · left
          exact List.mem_cons_of_mem _ h5
        · right
          exact ⟨b', by simpa [lookupA, h2] using hb1, hb2, hb3⟩

/-- The invariants ignore the blacklist. -/
theorem invS_withBlacklist {S : Type} {st : MempoolState} (env : Env S) (h : Nat)
    (hInv : InvS st) : InvS (withBlacklist env st h) := by
  obtain ⟨a, b, c, d, e, f, g, i, j⟩ := hInv
  exact ⟨a, b, c, d, e, f, g, i, j⟩

/-- The full invariant ignores the blacklist. -/
theorem poolInv_withBlacklist {S : Type} {st : MempoolState} (env : Env S) (h : Nat)
    (hInv : PoolInv st) : PoolInv (withBlacklist env st h) :=
  ⟨invS_withBlacklist env h hInv.struct, hInv.sizeCap, hInv.senderCap⟩

/-- Bucket membership after inserting `t` into its own key's bucket. -/
theorem memBucket_bucketInsert {key : Tx → Nat} {m : List (Nat × List Tx)} (t u : Tx) :
    memBucket (bucketInsert (key t) t m) (key u) u ↔ u = t ∨ memBucket m (key u) u := by
  unfold memBucket
  by_cases hk : key u = key t
  · rw [hk, lookupA_bucketInsert_self]
    constructor
    · rintro ⟨b, hb1, hb2⟩
      obtain rfl : b = setInsert t ((lookupA (key t) m).getD []) := by
        injection hb1 with hb1
        exact hb1.symm
      rcases mem_setInsert.mp hb2 with rfl | hb3
      · exact Or.inl rfl
      · cases hlk : lookupA (key t) m with
        | none =>
          rw [hlk] at hb3
          simp at hb3
        | some b' =>
          rw [hlk] at hb3
          simp only [Option.getD_some] at hb3
          exact Or.inr ⟨b', rfl, hb3⟩
    · rintro (rfl | ⟨b, hb1, hb2⟩)
      · exact ⟨_, rfl, mem_setInsert.mpr (Or.inl rfl)⟩
      · refine ⟨_, rfl, mem_setInsert.mpr (Or.inr ?_)⟩
        rw [hb1]
        simpa using hb2
  · rw [lookupA_bucketInsert_ne hk]
    constructor
    · rintro ⟨b, hb1, hb2⟩
      exact Or.inr ⟨b, hb1, hb2⟩
    · rintro (rfl | ⟨b, hb1, hb2⟩)
      · exact absurd rfl hk
      · exact ⟨b, hb1, hb2⟩

/-- Bucket membership after erasing `t` from its own key's bucket, for a
well-formed bucket map. -/
theorem memBucket_bucketErase {key : Tx → Nat} {m : List (Nat × List Tx)}
    (hwf : bucketsWF key m) (t u : Tx) :
    memBucket (bucketErase (key t) t m) (key u) u ↔ memBucket m (key u) u ∧ u ≠ t := by
  unfold memBucket
  by_cases hk : key u = key t
  · rw [hk, lookupA_bucketErase_self hwf.1]
    cases hlk : lookupA (key t) m with
    | none =>
      simp only []
      constructor
      · rintro ⟨b, hb1, hb2⟩
        cases hb1
      · rintro ⟨⟨b, hb1, hb2⟩, hne⟩
        cases hb1
    | some b =>
      have hbnd : b.Nodup := pairwise_txLt_nodup (hwf.2 _ (lookupA_mem hlk)).2.1
      by_cases hemp : (setErase t b).isEmpty = true
      · simp only [hemp, if_true]
        constructor
        · rintro ⟨b', hb1, hb2⟩
          cases hb1
        · rintro ⟨⟨b', hb1, hb2⟩, hne⟩
          injection hb1 with hb1
          subst hb1
          have : u ∈ setErase t b := (mem_setErase hbnd).mpr ⟨hb2, hne⟩
          rw [List.isEmpty_iff.mp hemp] at this
          simp at this
      · simp only [hemp, if_false]
        constructor
        · rintro ⟨b', hb1, hb2⟩
          injection hb1 with hb1
          subst hb1
          have := (mem_setErase hbnd).mp hb2
          exact ⟨⟨b, rfl, this.1⟩, this.2⟩
        · rintro ⟨⟨b', hb1, hb2⟩, hne⟩
          injection hb1 with hb1
          subst hb1
          exact ⟨_, rfl, (mem_setErase hbnd).mpr ⟨hb2, hne⟩⟩
  · rw [lookupA_bucketErase_ne hk]
    constructor
    · rintro ⟨b, hb1, hb2⟩
      refine ⟨⟨b, hb1, hb2⟩, ?_⟩
      rintro rfl
      exact hk rfl
    · rintro ⟨⟨b, hb1, hb2⟩, hne⟩
      exact ⟨b, hb1, hb2⟩

/-- Well-formedness of the bucket maps is preserved by erasing a
transaction from its own key's bucket. -/
theorem bucketsWF_bucketErase {key : Tx → Nat} {m : List (Nat × List Tx)}
    (hwf : bucketsWF key m) (t : Tx) : bucketsWF key (bucketErase (key t) t m) := by
  refine ⟨List.Nodup.sublist (bucketErase_keys_sublist _ _ _) hwf.1, ?_⟩
  intro p hp
  rcases bucketErase_entries hp with hp' | ⟨b, hb1, rfl, hb3⟩
  · exact hwf.2 p hp'
  · have hwb := hwf.2 _ (lookupA_mem hb1)
    refine ⟨?_, List.Pairwise.sublist (setErase_sublist t b) hwb.2.1, ?_⟩
    · intro hc
      exact hb3 (List.isEmpty_iff.mpr hc)
    · exact fun u hu => hwb.2.2 u ((setErase_sublist t b).subset hu)

/-- Well-formedness of the bucket maps is preserved by inserting a
transaction into its own key's bucket, for positive-size transactions. -/
theorem bucketsWF_bucketInsert {key : Tx → Nat} {m : List (Nat × List Tx)}
    (hwf : bucketsWF key m) {t : Tx} (ht : 0 < t.size)
    (hpos : ∀ p ∈ m, ∀ u ∈ p.2, 0 < u.size) :
    bucketsWF key (bucketInsert (key t) t m) := by
  refine ⟨bucketInsert_keys_nodup t hwf.1, ?_⟩
  intro p hp
  rcases bucketInsert_entries hp with hp' | rfl
  · exact hwf.2 p hp'
  · cases hlk : lookupA (key t) m with
    | none =>
      refine ⟨setInsert_ne_nil t _, ?_, ?_⟩
      · simpa using setInsert_pairwise ht (by simp) List.Pairwise.nil
      · intro u hu
        simp only [Option.getD_none] at hu
        rcases mem_setInsert.mp hu with rfl | hu2
        · rfl
        · simp at hu2
    | some b =>
      have hmb := lookupA_mem hlk
      have hwb := hwf.2 _ hmb
      simp only [Option.getD_some]
      refine ⟨setInsert_ne_nil t b, setInsert_pairwise ht (fun u hu => hpos _ hmb u hu) hwb.2.1, ?_⟩
      intro u hu
      rcases mem_setInsert.mp hu with rfl | hu2
      · rfl
      · exact hwb.2.2 u hu2

/-- Structural well-formedness is preserved by `remove_transaction`,
unconditionally. -/
theorem removeTransaction_invS {st : MempoolState} (hI : InvS st) (t : Tx) :
    InvS (removeTransaction st t) := by
  obtain ⟨hkn, hkf, hss, hps, hsw, hrw, hmh, hms, hmr⟩ := hI
  have hndSorted : st.sortedFee.Nodup := pairwise_txLt_nodup hss
  refine ⟨?_, ?_, ?_, ?_, ?_, ?_, ?_, ?_, ?_⟩ <;>
    simp only [removeTransaction]
  · exact List.Nodup.sublist (eraseA_keys_sublist _ _) hkn
  · exact fun p hp => hkf p ((eraseA_sublist _ _).subset hp)
  · exact List.Pairwise.sublist (setErase_sublist t _) hss
  · exact fun u hu => hps u ((setErase_sublist t _).subset hu)
  · exact bucketsWF_bucketErase hsw t
  · exact bucketsWF_bucketErase hrw t
  · intro u
    rw [mem_setErase hndSorted]
    by_cases hut : u = t
    · subst hut
      rw [lookupA_eraseA_self _ hkn]
      simp
    · have hfp : fingerprint u ≠ fingerprint t := fun hh => hut (fingerprint_injective hh)
      rw [lookupA_eraseA_ne hfp, ← hmh u]
      simp [hut]
  · intro u
    rw [mem_setErase hndSorted, memBucket_bucketErase hsw t u, ← hms u]
  · intro u
    rw [mem_setErase hndSorted, memBucket_bucketErase hrw t u, ← hmr u]

/-- The full invariant is preserved by `remove_transaction`,
unconditionally. -/
theorem removeTransaction_inv {st : MempoolState} (hI : PoolInv st) (t : Tx) :
    PoolInv (removeTransaction st t) := by
  refine ⟨removeTransaction_invS hI.struct t, ?_, ?_⟩
  · exact le_trans (List.Sublist.length_le (setErase_sublist t _)) hI.sizeCap
  · intro p hp
    rcases bucketErase_entries hp with hp' | ⟨b, hb1, rfl, hb3⟩
    · exact hI.senderCap p hp'
    · exact le_trans (List.Sublist.length_le (setErase_sublist t b))
        (hI.senderCap _ (lookupA_mem hb1))

/-- Structural well-formedness is preserved by `add_transaction` keyed by
the transaction's own fingerprint, for positive serialized size. -/
theorem addTransaction_invS {st : MempoolState} (hI : InvS st) {t : Tx} (ht : 0 < t.size) :
    InvS (addTransaction st (fingerprint t) t) := by
  obtain ⟨hkn, hkf, hss, hps, hsw, hrw, hmh, hms, hmr⟩ := hI
  have hposS : ∀ p ∈ st.bySender, ∀ u ∈ p.2, 0 < u.size := by
    intro p hp u hu
    refine hps u ((hms u).mpr ⟨p.2, ?_, hu⟩)
    rw [(hsw.2 p hp).2.2 u hu]
    exact mem_lookupA hsw.1 (by simpa using hp)
  have hposR : ∀ p ∈ st.byRecipient, ∀ u ∈ p.2, 0 < u.size := by
    intro p hp u hu
    refine hps u ((hmr u).mpr ⟨p.2, ?_, hu⟩)
    rw [(hrw.2 p hp).2.2 u hu]
    exact mem_lookupA hrw.1 (by simpa using hp)
  refine ⟨?_, ?_, ?_, ?_, ?_, ?_, ?_, ?_, ?_⟩ <;>
    simp only [addTransaction]
  · exact insertA_keys_nodup t hkn
  · intro p hp
    rcases insertA_entries hp with hp' | hp'
    · rw [hp']
    · exact hkf p hp'
  · exact setInsert_pairwise ht hps hss
  · intro u hu
    rcases mem_setInsert.mp hu with rfl | hu2
    · exact ht
    · exact hps u hu2
  · exact bucketsWF_bucketInsert hsw ht hposS
  · exact bucketsWF_bucketInsert hrw ht hposR
  · intro u
    rw [mem_setInsert]
    by_cases hut : u = t
    · subst hut
      rw [lookupA_insertA_self]
      simp
    · have hfp : fingerprint u ≠ fingerprint t := fun hh => hut (fingerprint_injective hh)
      rw [lookupA_insertA_ne hfp, ← hmh u]
      simp [hut]
  · intro u
    rw [mem_setInsert, memBucket_bucketInsert t u, ← hms u]
  · intro u
    rw [mem_setInsert, memBucket_bucketInsert t u, ← hmr u]

/-- Accounting of the phase-1 walk: a successful walk consumes a prefix,
counts each consumed transaction, and leaves a suffix sublist. -/
theorem applyHigher_spec {S : Type} (env : Env S) (t : Tx) :
    ∀ (l : List Tx) (sim : S) (n : Nat) {sim' : S} {n' : Nat} {rest : List Tx},
      applyHigher env t l sim n = some (sim', n', rest) →
      n ≤ n' ∧ n' + rest.length = n + l.length ∧ rest.Sublist l := by
  intro l
  induction l with
  | nil =>
    intro sim n sim' n' rest h
    simp only [applyHigher, Option.some.injEq] at h
    obtain ⟨rfl, rfl, rfl⟩ := Prod.mk.injEq .. ▸ h
    simp
  | cons u r ih =>
    intro sim n sim' n' rest h
    unfold applyHigher at h
    split at h
    · simp only [Option.some.injEq, Prod.mk.injEq] at h
      obtain ⟨-, rfl, rfl⟩ := h
      exact ⟨le_refl _, rfl, List.Sublist.refl _⟩
    · split at h
      · cases h
      · obtain ⟨h1, h2, h3⟩ := ih _ _ h
        refine ⟨le_trans (Nat.le_succ n) h1, by simpa using by omega, h3.cons u⟩

/-- Unfolding equation: phase-2 step with room and a successful commit. -/
theorem evictLower_cons_some {S : Type} (env : Env S) {u : Tx} {r : List Tx} {sim sim' : S}
    {n : Nat} (hlt : n < TRANSACTIONS_PER_SENDER_MAX)
    (hc : env.commitOutgoing sim u = some sim') :
    evictLower env (u :: r) sim n = evictLower env r sim' (n + 1) := by
  conv_lhs => rw [evictLower]
  simp [hlt, hc]

/-- Unfolding equation: phase-2 step with room and a failed commit. -/
theorem evictLower_cons_none {S : Type} (env : Env S) {u : Tx} {r : List Tx} {sim : S}
    {n : Nat} (hlt : n < TRANSACTIONS_PER_SENDER_MAX)
    (hc : env.commitOutgoing sim u = none) :
    evictLower env (u :: r) sim n = consRemoved u (evictLower env r sim n) := by
  conv_lhs => rw [evictLower]
  simp [hlt, hc]

/-- Unfolding equation: phase-2 step at the per-sender cap. -/
theorem evictLower_cons_full {S : Type} (env : Env S) (u : Tx) (r : List Tx) (sim : S)
    {n : Nat} (hge : ¬ n < TRANSACTIONS_PER_SENDER_MAX) :
    evictLower env (u :: r) sim n = consRemoved u (evictLower env r sim n) := by
  conv_lhs => rw [evictLower]
  simp [hge]

/-- Accounting of the phase-2 walk: the count only grows, stays within the
per-sender cap, and together with the eviction marks exhausts the walked
list, of which the marks are a sublist. -/
theorem evictLower_spec {S : Type} (env : Env S) :
    ∀ (l : List Tx) (sim : S) (n : Nat),
      n ≤ (evictLower env l sim n).2.1 ∧
      (evictLower env l sim n).2.1 + (evictLower env l sim n).2.2.length = n + l.length ∧
      (evictLower env l sim n).2.2.Sublist l ∧
      (n ≤ TRANSACTIONS_PER_SENDER_MAX →
        (evictLower env l sim n).2.1 ≤ TRANSACTIONS_PER_SENDER_MAX) := by
  intro l
  induction l with
  | nil =>
    intro sim n
    simp [evictLower]
  | cons u r ih =>
    intro sim n
    by_cases hlt : n < TRANSACTIONS_PER_SENDER_MAX
    · cases hc : env.commitOutgoing sim u with
      | some sim' =>
        rw [evictLower_cons_some env hlt hc]
        obtain ⟨h1, h2, h3, h4⟩ := ih sim' (n + 1)
        refine ⟨le_trans (Nat.le_succ n) h1, ?_, h3.cons u, fun _ => h4 (by omega)⟩
        simp only [List.length_cons]
        omega
      | none =>
        rw [evictLower_cons_none env hlt hc]
        obtain ⟨h1, h2, h3, h4⟩ := ih sim n
        refine ⟨h1, ?_, ?_, fun hn => by simpa [consRemoved] using h4 hn⟩
        · simp only [consRemoved, List.length_cons]
          omega
        · simpa [consRemoved] using h3.cons₂ u
    · rw [evictLower_cons_full env u r sim hlt]
      obtain ⟨h1, h2, h3, h4⟩ := ih sim n
      refine ⟨h1, ?_, ?_, fun hn => by simpa [consRemoved] using h4 hn⟩
      · simp only [consRemoved, List.length_cons]
        omega
      · simpa [consRemoved] using h3.cons₂ u

/-- A list without duplicates is no longer than any list containing it. -/
theorem nodup_subset_length_le {α : Type} [DecidableEq α] {l l' : List α}
    (hnd : l.Nodup) (hsub : l ⊆ l') : l.length ≤ l'.length := by
  calc l.length = l.toFinset.card := (List.toFinset_card_of_nodup hnd).symm
    _ ≤ l'.toFinset.card := Finset.card_le_card
        (fun x hx => List.mem_toFinset.mpr (hsub (List.mem_toFinset.mp hx)))
    _ ≤ l'.length := l'.toFinset_card_le

/-- Removing a sublist's elements from a duplicate-free list by filtering
accounts exactly for the sublist's length. -/
theorem length_filter_not_mem_of_sublist {α : Type} [DecidableEq α] {rem l : List α}
    (hs : rem.Sublist l) (hnd : l.Nodup) :
    (l.filter (fun u => u ∉ rem)).length + rem.length = l.length := by
  induction hs with
  | slnil => simp
  | cons a hs ih =>
    rename_i rem' l'
    simp only [List.nodup_cons] at hnd
    have ha : a ∉ rem' := fun hc => hnd.1 (hs.subset hc)
    have hrec := ih hnd.2
    have hpa : (decide (a ∉ rem') : Bool) = true := by simpa using ha
    rw [List.filter_cons, if_pos hpa]
    simp only [List.length_cons]
    omega
  | cons₂ a hs ih =>
    rename_i rem' l'
    simp only [List.nodup_cons] at hnd
    have hrec := ih hnd.2
    have hpa : ¬ ((decide (a ∉ a :: rem') : Bool) = true) := by simp
    rw [List.filter_cons, if_neg hpa]
    have hfc : l'.filter (fun u => u ∉ a :: rem') = l'.filter (fun u => u ∉ rem') := by
      apply List.filter_congr
      intro u hu
      have hua : u ≠ a := fun hc => hnd.1 (hc ▸ hu)
      simp [hua]
    rw [hfc]
    simp only [List.length_cons]
    omega

/-- Structural well-formedness is preserved by a fold of removals. -/
theorem foldl_removeTransaction_invS {l : List Tx} :
    ∀ {st : MempoolState}, InvS st → InvS (l.foldl removeTransaction st) := by
  induction l with
  | nil => intro st hI; exact hI
  | cons a r ih =>
    intro st hI
    exact ih (removeTransaction_invS hI a)

/-- The full invariant is preserved by a fold of removals. -/
theorem foldl_removeTransaction_inv {l : List Tx} :
    ∀ {st : MempoolState}, PoolInv st → PoolInv (l.foldl removeTransaction st) := by
  induction l with
  | nil => intro st hI; exact hI
  | cons a r ih =>
    intro st hI
    exact ih (removeTransaction_inv hI a)

/-- Pool membership after a fold of removals. -/
theorem mem_sortedFee_foldl_remove {l : List Tx} :
    ∀ {st : MempoolState}, InvS st → ∀ u,
      (u ∈ (l.foldl removeTransaction st).sortedFee ↔ u ∈ st.sortedFee ∧ u ∉ l) := by
  induction l with
  | nil =>
    intro st hI u
    simp
  | cons a r ih =>
    intro st hI u
    rw [List.foldl_cons, ih (removeTransaction_invS hI a) u]
    have : (removeTransaction st a).sortedFee = setErase a st.sortedFee := rfl
    rw [this, mem_setErase (pairwise_txLt_nodup hI.sortedSorted)]
    simp only [List.mem_cons]
    tauto

/-- Pool size after a fold of removals of distinct present transactions. -/
theorem length_sortedFee_foldl_remove {l : List Tx} :
    ∀ {st : MempoolState}, InvS st → l.Nodup → (∀ u ∈ l, u ∈ st.sortedFee) →
      (l.foldl removeTransaction st).sortedFee.length + l.length =
        st.sortedFee.length := by
  induction l with
  | nil =>
    intro st _ _ _
    simp
  | cons a r ih =>
    intro st hI hnd hmem
    simp only [List.nodup_cons] at hnd
    have hrec := ih (removeTransaction_invS hI a) hnd.2 (fun u hu => by
      have : (removeTransaction st a).sortedFee = setErase a st.sortedFee := rfl
      rw [this, mem_setErase (pairwise_txLt_nodup hI.sortedSorted)]
      exact ⟨hmem u (List.mem_cons_of_mem a hu), fun hc => hnd.1 (hc ▸ hu)⟩)
    have hlen : (setErase a st.sortedFee).length + 1 = st.sortedFee.length :=
      setErase_length_of_mem (hmem a (List.mem_cons_self a r))
    have : (removeTransaction st a).sortedFee = setErase a st.sortedFee := rfl
    rw [List.foldl_cons, List.length_cons]
    rw [this] at hrec
    omega

/-- The per-sender cap is preserved by one removal. -/
theorem removeTransaction_senderCap {st : MempoolState}
    (hcap : ∀ p ∈ st.bySender, p.2.length ≤ TRANSACTIONS_PER_SENDER_MAX) (t : Tx) :
    ∀ p ∈ (removeTransaction st t).bySender, p.2.length ≤ TRANSACTIONS_PER_SENDER_MAX := by
  intro p hp
  rcases bucketErase_entries hp with hp' | ⟨b, hb1, rfl, hb3⟩
  · exact hcap p hp'
  · exact le_trans (List.Sublist.length_le (setErase_sublist t b))
      (hcap _ (lookupA_mem hb1))

/-- The mempool size cap is preserved by one removal. -/
theorem removeTransaction_sortedFee_length_le (st : MempoolState) (t : Tx) :
    (removeTransaction st t).sortedFee.length ≤ st.sortedFee.length :=
  List.Sublist.length_le (setErase_sublist t _)

/-- Entries of the sender map after removing transactions of one sender are
original entries or entries at that sender's key. -/
theorem foldl_remove_bySender_entries {a : Nat} :
    ∀ {l : List Tx}, (∀ u ∈ l, u.sender = a) →
      ∀ {st : MempoolState}, ∀ p ∈ (l.foldl removeTransaction st).bySender,
        p ∈ st.bySender ∨ p.1 = a := by
  intro l
  induction l with
  | nil =>
    intro _ st p hp
    exact Or.inl hp
  | cons u r ih =>
    intro hl st p hp
    rcases ih (fun v hv => hl v (List.mem_cons_of_mem u hv)) p hp with hp' | hp'
    · have hu : u.sender = a := hl u (List.mem_cons_self u r)
      rcases bucketErase_entries hp' with hp'' | ⟨b, _, rfl, _⟩
      · exact Or.inl hp''
      · exact Or.inr hu
    · exact Or.inr hp'

/-- The commit block of a successful admission preserves the full
invariant. -/
theorem pushCommit_inv {S : Type} (env : Env S) {st : MempoolState} {t : Tx}
    (hI : PoolInv st) (ht : 0 < t.size)
    (hnk : lookupA (fingerprint t) st.byHash = none)
    {sim1 sim2 : S} {k : Nat} {rest : List Tx}
    (hap : applyHigher env t ((lookupA t.sender st.bySender).getD []).reverse sim1 0 =
      some (sim2, k, rest))
    (hk : k < TRANSACTIONS_PER_SENDER_MAX) (sim3 : S) :
    PoolInv (pushCommit st t (evictLower env rest sim3 (k + 1)).2.2) := by
  obtain ⟨hIS, hcapN, hcapS⟩ := hI
  set bucket := (lookupA t.sender st.bySender).getD [] with hbucket
  set toRemove := (evictLower env rest sim3 (k + 1)).2.2 with htoRemove
  -- facts about the sender's current bucket
  have hbfacts : bucket.Pairwise txLt ∧ (∀ u ∈ bucket, u ∈ st.sortedFee) ∧
      (∀ u ∈ bucket, u.sender = t.sender) ∧ bucket.length ≤ TRANSACTIONS_PER_SENDER_MAX := by
    rw [hbucket]
    cases hlk : lookupA t.sender st.bySender with
    | none => simp [TRANSACTIONS_PER_SENDER_MAX]
    | some b =>
      have hmem := lookupA_mem hlk
      have hwb := hIS.senderWF.2 _ hmem
      simp only [Option.getD_some]
      refine ⟨hwb.2.1, ?_, fun u hu => hwb.2.2 u hu, hcapS _ hmem⟩
      intro u hu
      refine (hIS.memSender u).mpr ⟨b, ?_, hu⟩
      rw [hwb.2.2 u hu]
      exact hlk
  obtain ⟨hbsort, hbmem, hbsend, hbcap⟩ := hbfacts
  have hbnodup : bucket.Nodup := pairwise_txLt_nodup hbsort
  have htnotin : t ∉ st.sortedFee := by
    intro hc
    rw [(hIS.memHash t).mp hc] at hnk
    cases hnk
  have htnotbucket : t ∉ bucket := fun hc => htnotin (hbmem t hc)
  -- walk accounting
  obtain ⟨ha1, ha2, ha3⟩ := applyHigher_spec env t bucket.reverse sim1 0 hap
  obtain ⟨he1, he2, he3, he4⟩ := evictLower_spec env rest sim3 (k + 1)
  rw [← htoRemove] at he2 he3
  set n' := (evictLower env rest sim3 (k + 1)).2.1 with hn'
  have hn'cap : n' ≤ TRANSACTIONS_PER_SENDER_MAX := he4 hk
  have hremsub : toRemove.Sublist bucket.reverse := he3.trans ha3
  have hremnodup : toRemove.Nodup :=
    List.Nodup.sublist hremsub (by simpa using hbnodup)
  have hremmem : ∀ u ∈ toRemove, u ∈ bucket := fun u hu => by
    have := hremsub.subset hu
    simpa using this
  have hremsend : ∀ u ∈ toRemove, u.sender = t.sender :=
    fun u hu => hbsend u (hremmem u hu)
  have htnotrem : t ∉ toRemove := fun hc => htnotbucket (hremmem t hc)
  have hlenrest : k + rest.length = bucket.length := by
    have := ha2
    simpa using this
  -- the state after add
  set st1 := addTransaction st (fingerprint t) t with hst1
  have hIS1 : InvS st1 := addTransaction_invS hIS ht
  have hsorted1 : st1.sortedFee = setInsert t st.sortedFee := rfl
  have hlen1 : st1.sortedFee.length = st.sortedFee.length + 1 := by
    rw [hsorted1, setInsert_length_of_not_mem htnotin]
  -- the state after the removals
  set st2 := toRemove.foldl removeTransaction st1 with hst2
  have hIS2 : InvS st2 := foldl_removeTransaction_invS hIS1
  have hmem2 : ∀ u, u ∈ st2.sortedFee ↔ (u = t ∨ u ∈ st.sortedFee) ∧ u ∉ toRemove := by
    intro u
    rw [hst2, mem_sortedFee_foldl_remove hIS1 u, hsorted1, mem_setInsert]
  have hremmem1 : ∀ u ∈ toRemove, u ∈ st1.sortedFee := fun u hu => by
    rw [hsorted1, mem_setInsert]
    exact Or.inr (hbmem u (hremmem u hu))
  have hlen2 : st2.sortedFee.length + toRemove.length = st.sortedFee.length + 1 := by
    rw [hst2]
    rw [length_sortedFee_foldl_remove hIS1 hremnodup hremmem1, hlen1]
  -- per-sender cap of st2
  have hcapS2 : ∀ p ∈ st2.bySender, p.2.length ≤ TRANSACTIONS_PER_SENDER_MAX := by
    intro p hp
    by_cases hpa : p.1 = t.sender
    · -- the sender's own bucket: bounded through the walk accounting
      have hlkp : lookupA p.1 st2.bySender = some p.2 :=
        mem_lookupA hIS2.senderWF.1 (by simpa using hp)
      have hwb2 := hIS2.senderWF.2 p hp
      have hnd2 : p.2.Nodup := pairwise_txLt_nodup hwb2.2.1
      have hsub : p.2 ⊆ t :: bucket.reverse.filter (fun u => u ∉ toRemove) := by
        intro u hu
        have hus : u.sender = p.1 := hwb2.2.2 u hu
        have humem : u ∈ st2.sortedFee := by
          refine (hIS2.memSender u).mpr ⟨p.2, ?_, hu⟩
          rw [hus]
          exact hlkp
        rcases (hmem2 u).mp humem with ⟨rfl | hu2, hu3⟩
        · exact List.mem_cons_self _ _
        · refine List.mem_cons_of_mem _ ?_
          rw [List.mem_filter]
          refine ⟨?_, by simpa using hu3⟩
          rw [List.mem_reverse]
          have : memBucket st.bySender u.sender u := (hIS.memSender u).mp hu2
          obtain ⟨b0, hb0, hub0⟩ := this
          rw [hus, hpa] at hb0
          rw [hbucket, hb0]
          exact hub0
      have hlenb : p.2.length ≤
          (List.filter (fun u => !decide (u ∈ toRemove)) bucket).length + 1 := by
        have := nodup_subset_length_le hnd2 hsub
        simpa using this
      have hfilter : (List.filter (fun u => !decide (u ∈ toRemove)) bucket).length +
          toRemove.length = bucket.length := by
        have := length_filter_not_mem_of_sublist hremsub (by simpa using hbnodup)
        simpa using this
      omega
    · -- untouched bucket: an original entry
      have : p ∈ st1.bySender ∨ p.1 = t.sender :=
        foldl_remove_bySender_entries hremsend p (hst2 ▸ hp)
      rcases this with hp1 | hp1
      · rcases bucketInsert_entries hp1 with hp0 | hp0
        · exact hcapS p hp0
        · exact absurd (congrArg Prod.fst hp0) hpa
      · exact absurd hp1 hpa
  -- assemble, including the possible size-cap trim
  show PoolInv (pushCommit st t toRemove)
  have hpc : pushCommit st t toRemove =
      (if SIZE_MAX < st2.sortedFee.length then
        match st2.sortedFee.head? with
        | some m => removeTransaction st2 m
        | none => st2
      else st2) := rfl
  rw [hpc]
  split
  · rename_i hbig
    cases hh : st2.sortedFee.head? with
    | none =>
      rw [List.head?_eq_none_iff] at hh
      rw [hh] at hbig
      simp at hbig
    | some m =>
      have hmmem : m ∈ st2.sortedFee := by
        cases hl : st2.sortedFee with
        | nil =>
          rw [hl] at hh
          cases hh
        | cons x xs =>
          rw [hl] at hh
          injection hh with hh
          subst hh
          exact List.mem_cons_self _ _
      show PoolInv (removeTransaction st2 m)
      refine ⟨removeTransaction_invS hIS2 m, ?_, removeTransaction_senderCap hcapS2 m⟩
      have : (removeTransaction st2 m).sortedFee.length + 1 = st2.sortedFee.length :=
        setErase_length_of_mem hmmem
      omega
  · rename_i hsmall
    exact ⟨hIS2, by omega, hcapS2⟩

/-- The replay stage preserves the full invariant. -/
theorem pushReplay_inv {S : Type} (env : Env S) {st : MempoolState} {t : Tx}
    (hI : PoolInv st) (ht : 0 < t.size)
    (hnk : lookupA (fingerprint t) st.byHash = none)
    (sim1 : S) (senderAcc : Account) :
    PoolInv (pushReplay env st t ((lookupA t.sender st.bySender).getD []) sim1 senderAcc).2 := by
  unfold pushReplay
  split
  next => exact hI
  next sim2 k rest happ =>
  split
  next => exact hI
  next hk =>
  split
  next => exact hI
  next sim3 hout =>
  split
  next => exact poolInv_withBlacklist env _ hI
  next =>
  exact pushCommit_inv env hI ht hnk happ (by omega) sim3

/-- The account-check stage preserves the full invariant. -/
theorem pushAccounts_inv {S : Type} (env : Env S) {st : MempoolState} {t : Tx}
    (hI : PoolInv st) (ht : 0 < t.size)
    (hnk : lookupA (fingerprint t) st.byHash = none) :
    PoolInv (pushAccounts env st t ((lookupA t.sender st.bySender).getD [])).2 := by
  unfold pushAccounts
  split
  next => exact hI
  next =>
  split
  next => exact hI
  next sim1 hinc =>
  split
  next => exact poolInv_withBlacklist env _ hI
  next =>
  split
  next => exact hI
  next senderAcc hacc =>
  split
  next => exact hI
  next =>
  exact pushReplay_inv env hI ht hnk sim1 senderAcc

/-- `push_transaction` preserves the full invariant, whatever its return
code. -/
theorem pushTransaction_inv {S : Type} (env : Env S) {st : MempoolState} {t : Tx}
    (hI : PoolInv st) (ht : 0 < t.size) : PoolInv (pushTransaction env st t).2 := by
  unfold pushTransaction
  split
  next => exact poolInv_withBlacklist env _ hI
  next =>
  split
  next => exact hI
  next hkn =>
  split
  next => exact hI
  next =>
  split
  next => exact hI
  next =>
  split
  next => exact hI
  next =>
  split
  next => exact hI
  next =>
  have hnk : lookupA (fingerprint t) st.byHash = none := by
    cases h : lookupA (fingerprint t) st.byHash with
    | none => rfl
    | some v =>
      rw [h] at hkn
      simp at hkn
  exact pushAccounts_inv env hI ht hnk

/-- `evict_transactions` preserves the full invariant: it only removes. -/
theorem evictTransactions_inv {S : Type} (env : Env S) {st : MempoolState}
    (hI : PoolInv st) : PoolInv (evictTransactions env st) :=
  foldl_removeTransaction_inv (foldl_removeTransaction_inv hI)

/-- Structural well-formedness is preserved by a fold of fingerprint-keyed
additions of positive-size transactions. -/
theorem foldl_addTransaction_invS {l : List Tx} :
    ∀ {st : MempoolState}, InvS st → (∀ u ∈ l, 0 < u.size) →
      InvS (l.foldl (fun s u => addTransaction s (fingerprint u) u) st) := by
  induction l with
  | nil =>
    intro st hI _
    exact hI
  | cons a r ih =>
    intro st hI hpos
    exact ih (addTransaction_invS hI (hpos a (List.mem_cons_self a r)))
      (fun u hu => hpos u (List.mem_cons_of_mem a hu))

/-- Pool membership after a fold of additions. -/
theorem mem_sortedFee_foldl_add {l : List Tx} :
    ∀ {st : MempoolState} (u : Tx),
      u ∈ (l.foldl (fun s v => addTransaction s (fingerprint v) v) st).sortedFee ↔
        u ∈ l ∨ u ∈ st.sortedFee := by
  induction l with
  | nil =>
    intro st u
    simp
  | cons a r ih =>
    intro st u
    rw [List.foldl_cons, ih u]
    have : (addTransaction st (fingerprint a) a).sortedFee = setInsert a st.sortedFee := rfl
    rw [this, mem_setInsert]
    simp only [List.mem_cons]
    tauto

/-- Entries of the sender map after adding transactions of one sender are
original entries or entries at that sender's key. -/
theorem foldl_add_bySender_entries {a : Nat} :
    ∀ {l : List Tx}, (∀ u ∈ l, u.sender = a) →
      ∀ {st : MempoolState},
        ∀ p ∈ (l.foldl (fun s v => addTransaction s (fingerprint v) v) st).bySender,
          p ∈ st.bySender ∨ p.1 = a := by
  intro l
  induction l with
  | nil =>
    intro _ st p hp
    exact Or.inl hp
  | cons u r ih =>
    intro hl st p hp
    rcases ih (fun v hv => hl v (List.mem_cons_of_mem u hv)) p hp with hp' | hp'
    · have hu : u.sender = a := hl u (List.mem_cons_self u r)
      rcases bucketInsert_entries hp' with hp'' | hp''
      · exact Or.inl hp''
      · right
        rw [congrArg Prod.fst hp'']
        exact hu
    · exact Or.inr hp'

/-- Accounting of the two-pointer merge: the count only grows and respects
the per-sender cap, the additions come from the restored set, the removals
from the existing set, and count plus removals equals start plus additions
plus the whole existing set. -/
theorem mergeTransactions_spec {S : Type} (env : Env S) :
    ∀ (oldL newL : List Tx) (sim : S) (n : Nat),
      n ≤ (mergeTransactions env oldL newL sim n).2.1 ∧
      (mergeTransactions env oldL newL sim n).2.2.1.Sublist newL ∧
      (mergeTransactions env oldL newL sim n).2.2.2.Sublist oldL ∧
      (mergeTransactions env oldL newL sim n).2.1 +
          (mergeTransactions env oldL newL sim n).2.2.2.length =
        n + (mergeTransactions env oldL newL sim n).2.2.1.length + oldL.length ∧
      (n ≤ TRANSACTIONS_PER_SENDER_MAX →
        (mergeTransactions env oldL newL sim n).2.1 ≤ TRANSACTIONS_PER_SENDER_MAX) := by
  intro oldL newL sim n
  induction oldL, newL, sim, n using mergeTransactions.induct env with
  | case1 sim n =>
    simp [mergeTransactions]
  | case2 u newR sim n hlt sim' hc ih =>
    obtain ⟨i1, i2, i3, i4, i5⟩ := ih
    try simp only [List.length_nil, List.length_cons] at i4
    simp only [mergeTransactions, hlt, if_true, hc, consAdded, consMergeRemoved,
      List.length_cons, List.length_nil]
    exact ⟨by omega, i2.cons₂ u, i3, by omega, fun _ => i5 (by omega)⟩
  | case3 u newR sim n hlt hc ih =>
    obtain ⟨i1, i2, i3, i4, i5⟩ := ih
    try simp only [List.length_nil, List.length_cons] at i4
    simp only [mergeTransactions, hlt, if_true, hc, List.length_cons, List.length_nil]
    exact ⟨i1, i2.cons u, i3, by omega, i5⟩
  | case4 u newR sim n hge ih =>
    obtain ⟨i1, i2, i3, i4, i5⟩ := ih
    try simp only [List.length_nil, List.length_cons] at i4
    simp only [mergeTransactions, hge, if_false, List.length_cons, List.length_nil]
    exact ⟨i1, i2.cons u, i3, by omega, i5⟩
  | case5 o oldR sim n hlt sim' hc ih =>
    obtain ⟨i1, i2, i3, i4, i5⟩ := ih
    try simp only [List.length_nil, List.length_cons] at i4
    simp only [mergeTransactions, hlt, if_true, hc, List.length_cons, List.length_nil]
    exact ⟨by omega, i2, i3.cons o, by omega, fun _ => i5 (by omega)⟩
  | case6 o oldR sim n hlt hc ih =>
    obtain ⟨i1, i2, i3, i4, i5⟩ := ih
    try simp only [List.length_nil, List.length_cons] at i4
    simp only [mergeTransactions, hlt, if_true, hc, consMergeRemoved,
      List.length_cons, List.length_nil]
    exact ⟨i1, i2, i3.cons₂ o, by omega, i5⟩
  | case7 o oldR sim n hge ih =>
    obtain ⟨i1, i2, i3, i4, i5⟩ := ih
    try simp only [List.length_nil, List.length_cons] at i4
    simp only [mergeTransactions, hge, if_false, consMergeRemoved,
      List.length_cons, List.length_nil]
    exact ⟨i1, i2, i3.cons₂ o, by omega, i5⟩
  | case8 o oldR u newR sim n hgt hlt sim' hc ih =>
    obtain ⟨i1, i2, i3, i4, i5⟩ := ih
    try simp only [List.length_nil, List.length_cons] at i4
    simp only [mergeTransactions, if_pos hgt, hlt, if_true, hc, consAdded,
      List.length_cons, List.length_nil]
    exact ⟨by omega, i2.cons₂ u, i3, by omega, fun _ => i5 (by omega)⟩
  | case9 o oldR u newR sim n hgt hlt hc ih =>
    obtain ⟨i1, i2, i3, i4, i5⟩ := ih
    try simp only [List.length_nil, List.length_cons] at i4
    simp only [mergeTransactions, if_pos hgt, hlt, if_true, hc, List.length_cons,
      List.length_nil]
    exact ⟨i1, i2.cons u, i3, by omega, i5⟩
  | case10 o oldR u newR sim n hgt hge ih =>
    obtain ⟨i1, i2, i3, i4, i5⟩ := ih
    try simp only [List.length_nil, List.length_cons] at i4
    simp only [mergeTransactions, if_pos hgt, hge, if_false, List.length_cons,
      List.length_nil]
    exact ⟨i1, i2.cons u, i3, by omega, i5⟩
  | case11 o oldR u newR sim n hngt hlt sim' hc ih =>
    obtain ⟨i1, i2, i3, i4, i5⟩ := ih
    try simp only [List.length_nil, List.length_cons] at i4
    simp only [mergeTransactions, if_neg hngt, hlt, if_true, hc, List.length_cons,
      List.length_nil]
    exact ⟨by omega, i2, i3.cons o, by omega, fun _ => i5 (by omega)⟩
  | case12 o oldR u newR sim n hngt hlt hc ih =>
    obtain ⟨i1, i2, i3, i4, i5⟩ := ih
    try simp only [List.length_nil, List.length_cons] at i4
    simp only [mergeTransactions, if_neg hngt, hlt, if_true, hc, consMergeRemoved,
      List.length_cons, List.length_nil]
    exact ⟨i1, i2, i3.cons₂ o, by omega, i5⟩
  | case13 o oldR u newR sim n hngt hge ih =>
    obtain ⟨i1, i2, i3, i4, i5⟩ := ih
    try simp only [List.length_nil, List.length_cons] at i4
    simp only [mergeTransactions, if_neg hngt, hge, if_false, consMergeRemoved,
      List.length_cons, List.length_nil]
    exact ⟨i1, i2, i3.cons₂ o, by omega, i5⟩

/-- Facts about one sender's bucket as fetched with a default: sortedness,
pool membership, the key condition and the per-sender cap. -/
theorem bucket_getD_facts {st : MempoolState} (hIS : InvS st)
    (hcap : ∀ p ∈ st.bySender, p.2.length ≤ TRANSACTIONS_PER_SENDER_MAX) (a : Nat) :
    ((lookupA a st.bySender).getD []).Pairwise txLt ∧
      (∀ u ∈ (lookupA a st.bySender).getD [], u ∈ st.sortedFee) ∧
      (∀ u ∈ (lookupA a st.bySender).getD [], u.sender = a) ∧
      ((lookupA a st.bySender).getD []).length ≤ TRANSACTIONS_PER_SENDER_MAX := by
  cases hlk : lookupA a st.bySender with
  | none => simp [TRANSACTIONS_PER_SENDER_MAX]
  | some b =>
    have hmem := lookupA_mem hlk
    have hwb := hIS.senderWF.2 _ hmem
    simp only [Option.getD_some]
    refine ⟨hwb.2.1, ?_, fun u hu => hwb.2.2 u hu, hcap _ hmem⟩
    intro u hu
    refine (hIS.memSender u).mpr ⟨b, ?_, hu⟩
    rw [hwb.2.2 u hu]
    exact hlk

/-- Members of the flattened reverted blocks. -/
theorem mem_flatBlocks {blocks : List (List Tx)} {u : Tx}
    (h : u ∈ blocks.foldr (· ++ ·) []) : ∃ l ∈ blocks, u ∈ l := by
  induction blocks with
  | nil => simp at h
  | cons b r ih =>
    simp only [List.foldr_cons] at h
    rcases List.mem_append.mp h with h1 | h1
    · exact ⟨b, List.mem_cons_self b r, h1⟩
    · obtain ⟨l, hl1, hl2⟩ := ih h1
      exact ⟨l, List.mem_cons_of_mem b hl1, hl2⟩

/-- Each bucket of the restore collection holds only transactions of its own
sender that satisfy any property enjoyed by the processed transactions. -/
theorem collectRestorable_aux {S : Type} (env : Env S) (height : Nat) (Q : Tx → Prop) :
    ∀ (l : List Tx) (acc : List (Nat × List Tx)),
      (∀ p ∈ acc, ∀ u ∈ p.2, u.sender = p.1 ∧ Q u) → (∀ u ∈ l, Q u) →
      ∀ p ∈ l.foldl
        (fun acc tx =>
          if ¬ isValidAt tx height = true then acc
          else if env.inValidityWindow (fingerprint tx) = true then acc
          else
            match incomingSim env tx with
            | none => acc
            | some _ => bucketInsert tx.sender tx acc) acc,
        ∀ u ∈ p.2, u.sender = p.1 ∧ Q u := by
  intro l
  induction l with
  | nil =>
    intro acc hacc _ p hp
    exact hacc p hp
  | cons tx r ih =>
    intro acc hacc hl p hp
    rw [List.foldl_cons] at hp
    have hQtx : Q tx := hl tx (List.mem_cons_self tx r)
    have hnext : ∀ q ∈ (if ¬ isValidAt tx height = true then acc
        else if env.inValidityWindow (fingerprint tx) = true then acc
        else
          match incomingSim env tx with
          | none => acc
          | some _ => bucketInsert tx.sender tx acc),
        ∀ u ∈ q.2, u.sender = q.1 ∧ Q u := by
      intro q hq
      split at hq
      · exact hacc q hq
      · split at hq
        · exact hacc q hq
        · split at hq
          · exact hacc q hq
          · rcases bucketInsert_entries hq with hq' | hq'
            · exact hacc q hq'
            · intro u hu
              rw [hq'] at hu ⊢
              simp only at hu ⊢
              rcases mem_setInsert.mp hu with rfl | hu2
              · exact ⟨rfl, hQtx⟩
              · cases hlk : lookupA tx.sender acc with
                | none =>
                  rw [hlk] at hu2
                  simp at hu2
                | some b =>
                  rw [hlk] at hu2
                  simp only [Option.getD_some] at hu2
                  have := hacc _ (lookupA_mem hlk) u hu2
                  exact this
    exact ih _ hnext (fun u hu => hl u (List.mem_cons_of_mem tx hu)) p hp

/-- Key condition and provenance of the restore collection. -/
theorem collectRestorable_facts {S : Type} (env : Env S) (height : Nat)
    (blocks : List (List Tx)) :
    ∀ p ∈ collectRestorable env height blocks,
      ∀ u ∈ p.2, u.sender = p.1 ∧ u ∈ blocks.foldr (· ++ ·) [] := by
  intro p hp u hu
  exact collectRestorable_aux env height (fun u => u ∈ blocks.foldr (· ++ ·) [])
    (blocks.foldr (· ++ ·) []) [] (by simp) (fun u hu => hu) p hp u hu

/-- The per-sender cap is preserved by a fold of removals. -/
theorem foldl_removeTransaction_senderCap {l : List Tx} :
    ∀ {st : MempoolState},
      (∀ p ∈ st.bySender, p.2.length ≤ TRANSACTIONS_PER_SENDER_MAX) →
      ∀ p ∈ (l.foldl removeTransaction st).bySender,
        p.2.length ≤ TRANSACTIONS_PER_SENDER_MAX := by
  induction l with
  | nil =>
    intro st hcap p hp
    exact hcap p hp
  | cons a r ih =>
    intro st hcap p hp
    exact ih (removeTransaction_senderCap hcap a) p hp

/-- One sender's restore merge preserves structural well-formedness and the
per-sender cap. -/
theorem restoreStep_inv {S : Type} (env : Env S) (acc : S × MempoolState) (p : Nat × List Tx)
    (hIS : InvS acc.2)
    (hcap : ∀ q ∈ acc.2.bySender, q.2.length ≤ TRANSACTIONS_PER_SENDER_MAX)
    (hkey : ∀ u ∈ p.2, u.sender = p.1) (hpos : ∀ u ∈ p.2, 0 < u.size) :
    InvS (restoreStep env acc p).2 ∧
      ∀ q ∈ (restoreStep env acc p).2.bySender,
        q.2.length ≤ TRANSACTIONS_PER_SENDER_MAX := by
  obtain ⟨hb1, hb2, hb3, hb4⟩ := bucket_getD_facts hIS hcap p.1
  set existing := (lookupA p.1 acc.2.bySender).getD [] with hex
  set res := mergeTransactions env existing.reverse p.2.reverse acc.1 0 with hres
  obtain ⟨m1, m2, m3, m4, m5'⟩ :=
    mergeTransactions_spec env existing.reverse p.2.reverse acc.1 0
  rw [← hres] at m1 m2 m3 m4 m5'
  have m5 : res.2.1 ≤ TRANSACTIONS_PER_SENDER_MAX := m5' (Nat.zero_le _)
  have haddmem : ∀ u ∈ res.2.2.1, u ∈ p.2 := fun u hu => by simpa using m2.subset hu
  have haddpos : ∀ u ∈ res.2.2.1, 0 < u.size := fun u hu => hpos u (haddmem u hu)
  have haddsend : ∀ u ∈ res.2.2.1, u.sender = p.1 := fun u hu => hkey u (haddmem u hu)
  have hremmem : ∀ u ∈ res.2.2.2, u ∈ existing := fun u hu => by simpa using m3.subset hu
  have hremsend : ∀ u ∈ res.2.2.2, u.sender = p.1 := fun u hu => hb3 u (hremmem u hu)
  set st1 := res.2.2.1.foldl (fun s u => addTransaction s (fingerprint u) u) acc.2 with hst1
  have hIS1 : InvS st1 := foldl_addTransaction_invS hIS haddpos
  set st2 := res.2.2.2.foldl removeTransaction st1 with hst2
  have hIS2 : InvS st2 := foldl_removeTransaction_invS hIS1
  have hstep : (restoreStep env acc p).2 = st2 := rfl
  rw [hstep]
  refine ⟨hIS2, ?_⟩
  intro q hq
  by_cases hqa : q.1 = p.1
  · have hlkq : lookupA q.1 st2.bySender = some q.2 :=
      mem_lookupA hIS2.senderWF.1 (by simpa using hq)
    have hwb2 := hIS2.senderWF.2 q hq
    have hnd2 : q.2.Nodup := pairwise_txLt_nodup hwb2.2.1
    have hexnodup : existing.Nodup := pairwise_txLt_nodup hb1
    have hsub : q.2 ⊆ res.2.2.1 ++
        existing.filter (fun u => !decide (u ∈ res.2.2.2)) := by
      intro u hu
      have hus : u.sender = q.1 := hwb2.2.2 u hu
      have humem : u ∈ st2.sortedFee :=
        (hIS2.memSender u).mpr ⟨q.2, by rw [hus]; exact hlkq, hu⟩
      rw [hst2, mem_sortedFee_foldl_remove hIS1 u] at humem
      obtain ⟨hu1, hu2⟩ := humem
      rw [hst1, mem_sortedFee_foldl_add u] at hu1
      rcases hu1 with hu1 | hu1
      · exact List.mem_append.mpr (Or.inl hu1)
      · refine List.mem_append.mpr (Or.inr ?_)
        rw [List.mem_filter]
        constructor
        · obtain ⟨b0, hb0, hub0⟩ := (hIS.memSender u).mp hu1
          rw [hus, hqa] at hb0
          rw [hex, hb0]
          simpa using hub0
        · simpa using hu2
    have hq2len := nodup_subset_length_le hnd2 hsub
    have happlen : (res.2.2.1 ++
        existing.filter (fun u => !decide (u ∈ res.2.2.2))).length =
        res.2.2.1.length +
          (existing.filter (fun u => !decide (u ∈ res.2.2.2))).length := by
      simp
    have hfilter : (existing.filter (fun u => !decide (u ∈ res.2.2.2))).length +
        res.2.2.2.length = existing.length := by
      have := length_filter_not_mem_of_sublist m3 (by simpa using hexnodup)
      simpa using this
    have hm4 : res.2.1 + res.2.2.2.length =
        res.2.2.1.length + existing.length := by
      simpa using m4
    omega
  · have h1 : q ∈ st1.bySender ∨ q.1 = p.1 :=
      foldl_remove_bySender_entries hremsend q (hst2 ▸ hq)
    rcases h1 with h1 | h1
    · have h2 : q ∈ acc.2.bySender ∨ q.1 = p.1 :=
        foldl_add_bySender_entries haddsend q (hst1 ▸ h1)
      rcases h2 with h2 | h2
      · exact hcap q h2
      · exact absurd h2 hqa
    · exact absurd h1 hqa

/-- The restore merge fold preserves structural well-formedness and the
per-sender cap. -/
theorem foldl_restoreStep_inv {S : Type} (env : Env S) :
    ∀ (restored : List (Nat × List Tx)) (acc : S × MempoolState),
      InvS acc.2 →
      (∀ q ∈ acc.2.bySender, q.2.length ≤ TRANSACTIONS_PER_SENDER_MAX) →
      (∀ p ∈ restored, (∀ u ∈ p.2, u.sender = p.1) ∧ (∀ u ∈ p.2, 0 < u.size)) →
      InvS (restored.foldl (restoreStep env) acc).2 ∧
        ∀ q ∈ (restored.foldl (restoreStep env) acc).2.bySender,
          q.2.length ≤ TRANSACTIONS_PER_SENDER_MAX := by
  intro restored
  induction restored with
  | nil =>
    intro acc hIS hcap _
    exact ⟨hIS, hcap⟩
  | cons p r ih =>
    intro acc hIS hcap hprops
    rw [List.foldl_cons]
    have hp := hprops p (List.mem_cons_self p r)
    have hstep := restoreStep_inv env acc p hIS hcap hp.1 hp.2
    exact ih (restoreStep env acc p) hstep.1 hstep.2
      (fun q hq => hprops q (List.mem_cons_of_mem p hq))

/-- The `SIZE_MAX` trim restores the size cap. -/
theorem trim_inv {st : MempoolState} (hIS : InvS st)
    (hcap : ∀ p ∈ st.bySender, p.2.length ≤ TRANSACTIONS_PER_SENDER_MAX) :
    PoolInv (if SIZE_MAX < st.sortedFee.length then
      (st.sortedFee.take (st.sortedFee.length - SIZE_MAX)).foldl removeTransaction st
    else st) := by
  split
  · rename_i hbig
    have hnd : st.sortedFee.Nodup := pairwise_txLt_nodup hIS.sortedSorted
    have htakesub := List.take_sublist (st.sortedFee.length - SIZE_MAX) st.sortedFee
    have hlen := length_sortedFee_foldl_remove hIS
      (List.Nodup.sublist htakesub hnd) (fun u hu => htakesub.subset hu)
    have htlen : (st.sortedFee.take (st.sortedFee.length - SIZE_MAX)).length =
        st.sortedFee.length - SIZE_MAX := by
      rw [List.length_take]
      omega
    exact ⟨foldl_removeTransaction_invS hIS, by omega,
      foldl_removeTransaction_senderCap hcap⟩
  · rename_i hsmall
    exact ⟨hIS, by omega, hcap⟩

/-- `restore_transactions` preserves the full invariant, for reverted blocks
of nonempty-serialization transactions. -/
theorem restoreTransactions_inv {S : Type} (env : Env S) {st : MempoolState}
    {blocks : List (List Tx)} (hI : PoolInv st)
    (hpos : ∀ l ∈ blocks, ∀ u ∈ l, 0 < u.size) :
    PoolInv (restoreTransactions env st blocks) := by
  have hfacts := collectRestorable_facts env (env.blockNumber + 1) blocks
  have hfold := foldl_restoreStep_inv env
    (collectRestorable env (env.blockNumber + 1) blocks) (env.freshSim, st)
    hI.struct hI.senderCap
    (fun p hp => ⟨fun u hu => (hfacts p hp u hu).1, fun u hu => by
      obtain ⟨l, hl1, hl2⟩ := mem_flatBlocks (hfacts p hp u hu).2
      exact hpos l hl1 u hl2⟩)
  exact trim_inv hfold.1 hfold.2

/-- Membership in the concatenation of the buckets. -/
theorem mem_bucketsFlat {m : List (Nat × List Tx)} {u : Tx} :
    u ∈ bucketsFlat m ↔ ∃ q ∈ m, u ∈ q.2 := by
  induction m with
  | nil => simp [bucketsFlat]
  | cons p r ih =>
    simp only [bucketsFlat, List.foldr_cons, List.mem_append] at *
    rw [ih]
    constructor
    · rintro (h | ⟨q, hq1, hq2⟩)
      · exact ⟨p, List.mem_cons_self p r, h⟩
      · exact ⟨q, List.mem_cons_of_mem p hq1, hq2⟩
    · rintro ⟨q, hq1, hq2⟩
      rcases List.mem_cons.mp hq1 with rfl | hq1
      · exact Or.inl hq2
      · exact Or.inr ⟨q, hq1, hq2⟩

/-- Length of the concatenation of the buckets. -/
theorem length_bucketsFlat (m : List (Nat × List Tx)) :
    (bucketsFlat m).length = (m.map (fun p => p.2.length)).sum := by
  induction m with
  | nil => simp [bucketsFlat]
  | cons p r ih =>
    simp only [bucketsFlat, List.foldr_cons, List.length_append, List.map_cons,
      List.sum_cons] at *
    rw [ih]

/-- The concatenation of the buckets of a well-formed map has no
duplicates. -/
theorem nodup_bucketsFlat {key : Tx → Nat} {m : List (Nat × List Tx)}
    (hwf : bucketsWF key m) : (bucketsFlat m).Nodup := by
  obtain ⟨hknd, hprops⟩ := hwf
  induction m with
  | nil => simp [bucketsFlat]
  | cons p r ih =>
    simp only [List.map_cons, List.nodup_cons] at hknd
    simp only [bucketsFlat, List.foldr_cons]
    rw [List.nodup_append]
    refine ⟨pairwise_txLt_nodup (hprops p (List.mem_cons_self p r)).2.1,
      ih hknd.2 (fun q hq => hprops q (List.mem_cons_of_mem p hq)), ?_⟩
    intro u hu1 hu2
    obtain ⟨q, hq1, hq2⟩ := mem_bucketsFlat.mp hu2
    have h1 : key u = p.1 := (hprops p (List.mem_cons_self p r)).2.2 u hu1
    have h2 : key u = q.1 := (hprops q (List.mem_cons_of_mem p hq1)).2.2 u hq2
    exact hknd.1 (h1 ▸ h2 ▸ List.mem_map_of_mem Prod.fst hq1)

/-- The bucket concatenation of a well-formed coherent map has the same
members as the fee index. -/
theorem mem_bucketsFlat_iff_sorted {key : Tx → Nat} {m : List (Nat × List Tx)}
    {fee : List Tx} (hwf : bucketsWF key m)
    (hiff : ∀ u, u ∈ fee ↔ memBucket m (key u) u) (u : Tx) :
    u ∈ bucketsFlat m ↔ u ∈ fee := by
  rw [mem_bucketsFlat, hiff]
  constructor
  · rintro ⟨q, hq1, hq2⟩
    have hk : key u = q.1 := (hwf.2 q hq1).2.2 u hq2
    refine ⟨q.2, ?_, hq2⟩
    rw [hk]
    exact mem_lookupA hwf.1 (by simpa using hq1)
  · rintro ⟨b, hb1, hb2⟩
    exact ⟨(key u, b), lookupA_mem hb1, hb2⟩

/-- The internal invariant implies the claim-facing invariants. -/
theorem poolInv_claimInvariants {st : MempoolState} (hI : PoolInv st) :
    claimInvariants st := by
  obtain ⟨hIS, hsize, hcap⟩ := hI
  have hndS : st.sortedFee.Nodup := pairwise_txLt_nodup hIS.sortedSorted
  have hmemByHash : ∀ p ∈ st.byHash, p.2 ∈ st.sortedFee := by
    intro p hp
    have hk := hIS.hashKeyFp p hp
    refine (hIS.memHash p.2).mpr ?_
    rw [← hk]
    exact mem_lookupA hIS.hashKeysNodup (by simpa using hp)
  have hsndnd : (st.byHash.map Prod.snd).Nodup := by
    have hmapeq : st.byHash.map Prod.fst =
        st.byHash.map (fun p => fingerprint p.2) :=
      List.map_congr_left (fun p hp => hIS.hashKeyFp p hp)
    have h1 : (st.byHash.map (fun p => fingerprint p.2)).Nodup := by
      rw [← hmapeq]
      exact hIS.hashKeysNodup
    have h2 : st.byHash.map (fun p => fingerprint p.2) =
        (st.byHash.map Prod.snd).map fingerprint := by
      simp [List.map_map, Function.comp]
    rw [h2] at h1
    exact List.Nodup.of_map fingerprint h1
  have hsndmem : ∀ u, u ∈ st.byHash.map Prod.snd ↔ u ∈ st.sortedFee := by
    intro u
    constructor
    · intro hu
      obtain ⟨p, hp1, hp2⟩ := List.mem_map.mp hu
      rw [← hp2]
      exact hmemByHash p hp1
    · intro hu
      exact List.mem_map.mpr ⟨(fingerprint u, u), lookupA_mem ((hIS.memHash u).mp hu), rfl⟩
  have hpermH : List.Perm (st.byHash.map Prod.snd) st.sortedFee :=
    (List.perm_ext_iff_of_nodup hsndnd hndS).mpr hsndmem
  have hpermS : List.Perm (bucketsFlat st.bySender) st.sortedFee :=
    (List.perm_ext_iff_of_nodup (nodup_bucketsFlat hIS.senderWF) hndS).mpr
      (mem_bucketsFlat_iff_sorted hIS.senderWF hIS.memSender)
  have hpermR : List.Perm (bucketsFlat st.byRecipient) st.sortedFee :=
    (List.perm_ext_iff_of_nodup (nodup_bucketsFlat hIS.recipientWF) hndS).mpr
      (mem_bucketsFlat_iff_sorted hIS.recipientWF hIS.memRecipient)
  refine ⟨?_, ?_, ?_, ?_, ?_, ?_, ?_, ?_, ?_, hsize, hcap⟩
  · intro p hp
    have h1 := hmemByHash p hp
    exact ⟨h1, (hIS.memSender p.2).mp h1, (hIS.memRecipient p.2).mp h1⟩
  · intro u hu
    exact ⟨lookupA_mem ((hIS.memHash u).mp hu), (hIS.memSender u).mp hu,
      (hIS.memRecipient u).mp hu⟩
  · intro p hp u hu
    refine (hIS.memSender u).mpr ⟨p.2, ?_, hu⟩
    rw [(hIS.senderWF.2 p hp).2.2 u hu]
    exact mem_lookupA hIS.senderWF.1 (by simpa using hp)
  · intro p hp u hu
    refine (hIS.memRecipient u).mpr ⟨p.2, ?_, hu⟩
    rw [(hIS.recipientWF.2 p hp).2.2 u hu]
    exact mem_lookupA hIS.recipientWF.1 (by simpa using hp)
  · have := hpermH.length_eq
    simpa using this
  · rw [← length_bucketsFlat]
    exact hpermS.length_eq
  · rw [← length_bucketsFlat]
    exact hpermR.length_eq
  · exact fun p hp => (hIS.senderWF.2 p hp).1
  · exact fun p hp => (hIS.recipientWF.2 p hp).1

/-- The empty state satisfies the full invariant. -/
theorem poolInv_empty : PoolInv emptyState := by
  refine ⟨⟨?_, ?_, ?_, ?_, ?_, ?_, ?_, ?_, ?_⟩, ?_, ?_⟩ <;>
    simp [emptyState, lookupA, memBucket, bucketsWF, SIZE_MAX]

/-- C1: after every public mutating operation (`push_transaction`,
`evict_transactions`, `restore_transactions`) on a pool satisfying the
invariants, the resulting mempool state satisfies the structural invariants:
index coherence between `by_hash`, `sorted_fee`, `by_sender` and
`by_recipient` with the cardinality identities, no empty address buckets,
`|sorted_fee| ≤ SIZE_MAX`, and every sender bucket within
`TRANSACTIONS_PER_SENDER_MAX`.  Transactions are required to have a
nonempty serialization, as every real serialized transaction does. -/
theorem claim_C1 {S : Type} (env : Env S) (st : MempoolState) (t : Tx)
    (blocks : List (List Tx)) (hI : PoolInv st) (ht : 0 < t.size)
    (hpos : ∀ l ∈ blocks, ∀ u ∈ l, 0 < u.size) :
    claimInvariants (pushTransaction env st t).2 ∧
      claimInvariants (evictTransactions env st) ∧
      claimInvariants (restoreTransactions env st blocks) :=
  ⟨poolInv_claimInvariants (pushTransaction_inv env hI ht),
   poolInv_claimInvariants (evictTransactions_inv env hI),
   poolInv_claimInvariants (restoreTransactions_inv env hI hpos)⟩

/-- Witness for C1 at a concrete environment, state and transaction. -/
theorem claim_C1_witness :
    claimInvariants (pushTransaction unitEnv emptyState txW).2 ∧
      claimInvariants (evictTransactions unitEnv emptyState) ∧
      claimInvariants (restoreTransactions unitEnv emptyState [[txW]]) :=
  claim_C1 unitEnv emptyState txW [[txW]] poolInv_empty (by decide) (by decide)

/-- Case analysis of `push_transaction`: every run yields one of the five
outcome shapes. -/
theorem pushTransaction_cases {S : Type} (env : Env S) (st : MempoolState) (t : Tx) :
    pushTransaction env st t = (.Known, st) ∨
      pushTransaction env st t = (.Invalid, st) ∨
      pushTransaction env st t = (.FeeTooLow, st) ∨
      pushTransaction env st t = (.Filtered, withBlacklist env st (fingerprint t)) ∨
      (pushTransaction env st t).1 = .Accepted := by
  unfold pushTransaction
  split
  next => simp
  next =>
  split
  next => simp
  next =>
  split
  next => simp
  next =>
  split
  next => simp
  next =>
  split
  next => simp
  next =>
  split
  next => simp
  next =>
  unfold pushAccounts
  split
  next => simp
  next =>
  split
  next => simp
  next sim1 hinc =>
  split
  next => simp
  next =>
  split
  next => simp
  next senderAcc hacc =>
  split
  next => simp
  next =>
  unfold pushReplay
  split
  next => simp
  next sim2 k rest happ =>
  split
  next => simp
  next hk =>
  split
  next => simp
  next sim3 hout =>
  split
  next => simp
  next =>
  simp

/-- C2: `push_transaction` always returns, with one of exactly the five
return codes; on `Known`, `Invalid` or `FeeTooLow` the mempool state (all
four indexes and the blacklist) is exactly as before; on `Filtered` the only
state change is the insertion of the transaction's fingerprint into the
blacklist. -/
theorem claim_C2 {S : Type} (env : Env S) (st : MempoolState) (t : Tx) :
    ((pushTransaction env st t).1 = .Accepted ∨ (pushTransaction env st t).1 = .Known ∨
      (pushTransaction env st t).1 = .Invalid ∨
      (pushTransaction env st t).1 = .FeeTooLow ∨
      (pushTransaction env st t).1 = .Filtered) ∧
    (((pushTransaction env st t).1 = .Known ∨ (pushTransaction env st t).1 = .Invalid ∨
        (pushTransaction env st t).1 = .FeeTooLow) → (pushTransaction env st t).2 = st) ∧
    ((pushTransaction env st t).1 = .Filtered →
      (pushTransaction env st t).2 = withBlacklist env st (fingerprint t)) := by
  rcases pushTransaction_cases env st t with h | h | h | h | h
  · rw [h]
    simp
  · rw [h]
    simp
  · rw [h]
    simp
  · rw [h]
    simp
  · refine ⟨Or.inl h, ?_, ?_⟩
    · rw [h]
      simp
    · rw [h]
      simp

/-- Witness for C2 at a concrete environment, state and transaction: the
call is `Filtered` on a blacklisted fingerprint and the state change is
exactly the blacklist insertion. -/
theorem claim_C2_witness :
    (pushTransaction unitEnv
        { emptyState with blacklist := [fingerprint txW] } txW).2 =
      withBlacklist unitEnv { emptyState with blacklist := [fingerprint txW] }
        (fingerprint txW) :=
  (claim_C2 unitEnv { emptyState with blacklist := [fingerprint txW] } txW).2.2
    (by decide)

/-- The counting loop returns `true` exactly when the initial run of free
transactions is nonempty and long enough to lift the running count to the
quota. -/
theorem freeQuotaHit_iff (l : List Tx) (n : Nat) :
    freeQuotaHit l n = true ↔
      1 ≤ (l.takeWhile isFree).length ∧ 10 ≤ n + (l.takeWhile isFree).length := by
  induction l generalizing n with
  | nil => simp [freeQuotaHit]
  | cons u r ih =>
    by_cases hu : isFree u
    · simp only [freeQuotaHit, FREE_TRANSACTIONS_PER_SENDER_MAX, hu, if_true,
        List.takeWhile_cons, List.length_cons]
      split_ifs with h
      · simp only [true_iff]
        omega
      · rw [ih]
        omega
    · simp [freeQuotaHit, List.takeWhile_cons, hu]

/-- In a bucket sorted ascending by the mempool order, the free transactions
form an initial run: `takeWhile` and `filter` agree. -/
theorem takeWhile_isFree_of_sorted (l : List Tx) (hs : List.Pairwise txLt l)
    (hpos : ∀ u ∈ l, 0 < u.size) :
    l.takeWhile isFree = l.filter isFree := by
  induction l with
  | nil => simp
  | cons u r ih =>
    rcases List.pairwise_cons.1 hs with ⟨hu, hr⟩
    by_cases hf : isFree u
    · simp [List.takeWhile_cons, List.filter_cons, hf,
        ih hr (fun v hv => hpos v (List.mem_cons_of_mem _ hv))]
    · have hnil : r.filter isFree = [] := by
        rw [List.filter_eq_nil_iff]
        intro v hv hvf
        have hlt := hu v hv
        have hv1 : v.fee < v.size := by simpa [isFree] using hvf
        have hu1 : u.size ≤ u.fee := by simpa [isFree] using hf
        have hup : 0 < u.size := hpos u (List.mem_cons_self u r)
        have h1 : v.fee * u.size < u.fee * v.size :=
          calc v.fee * u.size < v.size * u.size := (Nat.mul_lt_mul_right hup).mpr hv1
            _ ≤ u.fee * v.size := by
                rw [Nat.mul_comm]
                exact Nat.mul_le_mul_right v.size hu1
        unfold txLt txCmp at hlt
        split_ifs at hlt <;> first | omega | simp at hlt
      simp [List.takeWhile_cons, List.filter_cons, hf, hnil]

/-- The counting loop never looks past the first non-free transaction. -/
theorem freeQuotaHit_stop (u : Tx) (hu : isFree u = false) :
    ∀ (pre suf : List Tx) (n : Nat),
      freeQuotaHit (pre ++ u :: suf) n = freeQuotaHit (pre ++ [u]) n := by
  intro pre
  induction pre with
  | nil =>
    intro suf n
    simp [freeQuotaHit, hu]
  | cons p pre ih =>
    intro suf n
    by_cases hp : isFree p
    · simp only [List.cons_append, freeQuotaHit, hp, if_true]
      split_ifs with h
      · rfl
      · exact ih suf (n + 1)
    · simp [freeQuotaHit, hp]

/-- Counterexample to C3's walk direction: with ten free and one paid
transaction in the sender's bucket, the engine (which iterates the bucket
ascending) rejects a further free transaction with `FeeTooLow`, while the
claim's highest-to-lowest walk meets the paid transaction first and does not
reach the quota, so it would not return `FeeTooLow`. -/
theorem claim_C3_cex :
    (pushTransaction unitEnv cexSt (freeTx 10)).1 = ReturnCode.FeeTooLow ∧
      specFreeQuotaDescending ((lookupA (freeTx 10).sender cexSt.bySender).getD []) =
        false := by
  decide

/-- C3 (amended): the free-transaction quota loop walks the sender's bucket in
its iteration order, i.e. from lowest to highest fee-per-byte; on a sorted
bucket of positive-size transactions it rejects exactly when the bucket
already holds `FREE_TRANSACTIONS_PER_SENDER_MAX` (= 10) free transactions; it
stops at the first non-free transaction; and submitting 11 free transactions
from a fresh sender yields `Accepted` for the first 10 and `FeeTooLow` for
the 11th. -/
theorem claim_C3 (bucket pre suf : List Tx) (u : Tx)
    (hs : List.Pairwise txLt bucket) (hpos : ∀ v ∈ bucket, 0 < v.size)
    (hu : isFree u = false) :
    (freeQuotaHit bucket 0 = true ↔
      FREE_TRANSACTIONS_PER_SENDER_MAX ≤ (bucket.filter isFree).length) ∧
    freeQuotaHit (pre ++ u :: suf) 0 = freeQuotaHit (pre ++ [u]) 0 ∧
    (pushSeq ((List.range 11).map freeTx) emptyState).1 =
      List.replicate 10 ReturnCode.Accepted ++ [ReturnCode.FeeTooLow] := by
  refine ⟨?_, freeQuotaHit_stop u hu pre suf 0, by decide⟩
  rw [freeQuotaHit_iff, takeWhile_isFree_of_sorted bucket hs hpos]
  simp only [FREE_TRANSACTIONS_PER_SENDER_MAX]
  omega

/-- Witness for C3 at a concrete bucket and split. -/
theorem claim_C3_witness :
    ((freeQuotaHit [paidTx] 0 = true ↔
        FREE_TRANSACTIONS_PER_SENDER_MAX ≤ ([paidTx].filter isFree).length) ∧
      freeQuotaHit ([freeTx 0] ++ paidTx :: [freeTx 1]) 0 =
        freeQuotaHit ([freeTx 0] ++ [paidTx]) 0 ∧
      (pushSeq ((List.range 11).map freeTx) emptyState).1 =
        List.replicate 10 ReturnCode.Accepted ++ [ReturnCode.FeeTooLow]) :=
  claim_C3 [paidTx] [freeTx 0] [freeTx 1] paidTx (by simp) (by decide) (by decide)

/-- On a list without staking-contract senders or recipients, the
block-building walk is exactly the greedy scan: the trie simulation never
alters the walk. -/
theorem gtfbWalk_no_staking {S : Type} (env : Env S) (maxSize : Nat) :
    ∀ (l : List Tx) (sim : S) (size : Nat),
      (∀ u ∈ l, u.sender ≠ env.stakingAddr ∧ u.recipient ≠ env.stakingAddr) →
      gtfbWalk env maxSize l sim size = ascGreedy env.minTxSize maxSize l size := by
  intro l
  induction l with
  | nil =>
    intro sim size _
    rfl
  | cons u r ih =>
    intro sim size h
    have hu := h u (List.mem_cons_self u r)
    have hr : ∀ v ∈ r, v.sender ≠ env.stakingAddr ∧ v.recipient ≠ env.stakingAddr :=
      fun v hv => h v (List.mem_cons_of_mem _ hv)
    simp only [gtfbWalk, ascGreedy, if_neg hu.1, if_neg hu.2]
    split_ifs with h1 h2
    · rw [ih _ _ hr]
    · rfl
    · exact ih _ _ hr

/-- Counterexample to C4's walk direction: with two 60-byte transactions and
`max_size = 100`, the engine (which iterates `sorted_fee` ascending) returns
the low-fee transaction, while the claim's highest-to-lowest walk would
return the high-fee one. -/
theorem claim_C4_cex :
    getTransactionsForBlock unitEnv gtfbSt 100 = [txA] ∧
      specGtfbDescending unitEnv gtfbSt 100 = [txB] := by
  decide

/-- C4 (amended): `get_transactions_for_block(max_size)` considers the
candidates of `sorted_fee` in the set's iteration order, i.e. from lowest to
highest fee; when no candidate touches the staking contract, a candidate `t`
is included exactly when the accumulated size plus `serialized_size(t)` is
`≤ max_size` at the moment `t` is considered, and the walk stops as soon as
the remaining budget is below `Transaction::MIN_SIZE` — i.e. the walk equals
the greedy in-order scan `ascGreedy`. -/
theorem claim_C4 {S : Type} (env : Env S) (st : MempoolState) (maxSize : Nat)
    (hns : ∀ u ∈ st.sortedFee, u.sender ≠ env.stakingAddr ∧ u.recipient ≠ env.stakingAddr) :
    getTransactionsForBlock env st maxSize =
      ascGreedy env.minTxSize maxSize st.sortedFee 0 :=
  gtfbWalk_no_staking env maxSize st.sortedFee env.freshSim 0 hns

/-- Witness for C4 at a concrete pool of two transactions. -/
theorem claim_C4_witness :
    getTransactionsForBlock unitEnv gtfbSt 100 =
      ascGreedy unitEnv.minTxSize 100 gtfbSt.sortedFee 0 :=
  claim_C4 unitEnv gtfbSt 100 (by decide)

/-- Counterexample to C5's "highest-fee end": with two transactions of
fee-per-byte 1/6 and 2 and `max_count = 1`, the engine returns the low-fee
transaction, while the claim's highest-fee-end query would return the
high-fee one. -/
theorem claim_C5_cex :
    getTransactions gtfbSt 1 0 1 = [txA] ∧ specTop gtfbSt 1 0 1 = [txB] := by
  decide

/-- C5 (amended): `get_transactions(max_count, min_fee_per_byte)` returns up
to `max_count` transactions from the lowest-fee end of the fee ordering after
filtering by the threshold: every returned transaction meets the threshold,
at most `max_count` are returned, and every returned transaction precedes
every filtered transaction left out, i.e. the returned transactions are the
minimal elements of the filtered set under the fee ordering. -/
theorem claim_C5 (st : MempoolState) (maxCount minNum minDen : Nat) (u v : Tx)
    (hs : List.Pairwise txLt st.sortedFee)
    (hu : u ∈ getTransactions st maxCount minNum minDen)
    (hv : v ∈ (st.sortedFee.filter
        (fun w => minNum * w.size ≤ minDen * w.fee)).drop maxCount) :
    minNum * u.size ≤ minDen * u.fee ∧
      (getTransactions st maxCount minNum minDen).length ≤ maxCount ∧
      txLt u v := by
  unfold getTransactions at hu ⊢
  refine ⟨?_, List.length_take_le _ _, ?_⟩
  · have hm := List.mem_of_mem_take hu
    exact of_decide_eq_true (List.mem_filter.mp hm).2
  · have hp : List.Pairwise txLt
        (st.sortedFee.filter (fun w => minNum * w.size ≤ minDen * w.fee)) :=
      hs.filter _
    rw [← List.take_append_drop maxCount
      (st.sortedFee.filter (fun w => minNum * w.size ≤ minDen * w.fee))] at hp
    exact (List.pairwise_append.mp hp).2.2 u hu v hv

/-- Witness for C5 at a concrete pool of two transactions. -/
theorem claim_C5_witness :
    0 * txA.size ≤ 1 * txA.fee ∧ (getTransactions gtfbSt 1 0 1).length ≤ 1 ∧
      txLt txA txB :=
  claim_C5 gtfbSt 1 0 1 txA txB (by decide) (by decide) (by decide)

/-- The eviction walk visits exactly the transactions of the sender map. -/
theorem mem_senderWalk (m : List (Nat × List Tx)) (u : Tx) :
    u ∈ m.foldr (fun p acc => p.2.reverse ++ acc) [] ↔ u ∈ bucketsFlat m := by
  induction m with
  | nil => simp [bucketsFlat]
  | cons p r ih =>
    simp only [bucketsFlat, List.foldr_cons, List.mem_append, List.mem_reverse] at *
    rw [ih]

/-- `pushSeq` preserves the full invariant. -/
theorem pushSeq_inv (l : List Tx) :
    ∀ {st : MempoolState}, PoolInv st → (∀ t ∈ l, 0 < t.size) →
      PoolInv (pushSeq l st).2 := by
  induction l with
  | nil =>
    intro st h _
    exact h
  | cons t r ih =>
    intro st h hp
    exact ih (pushTransaction_inv unitEnv h (hp t (List.mem_cons_self t r)))
      (fun u hu => hp u (List.mem_cons_of_mem t hu))

/-- Counterexample to C6's single shared write-transaction: two transactions
of sender 1 each spend the whole balance.  The engine, which opens a fresh
`db_txn` inside the per-transaction loop, validates each against the head
state and keeps both (the pool is unchanged), while the claim's cumulative
walk over one shared write-transaction keeps only one of the two. -/
theorem claim_C6_cex :
    evictTransactions balEnv evSt = evSt ∧
      (specEvictCumulative balEnv (balEnv.blockNumber + 1)
        ((lookupA 1 evSt.bySender).getD []).reverse balEnv.freshSim).length = 1 := by
  decide

/-- C6 (amended): `evict_transactions` opens a fresh scoped write-transaction
for every transaction it examines (the source creates `db_txn` inside the
innermost loop), so eviction decisions are independent per transaction: a
transaction stays in the pool exactly when it was there and its own
validity-window and height checks pass and its incoming and outgoing sides
apply to the head chain state, regardless of the fate of its same-sender
higher-fee predecessors. -/
theorem claim_C6 {S : Type} (env : Env S) (st : MempoolState) (t : Tx)
    (hI : PoolInv st) :
    t ∈ (evictTransactions env st).sortedFee ↔
      t ∈ st.sortedFee ∧ evictMark env (env.blockNumber + 1) t = .keep := by
  have hwalk : ∀ u : Tx, u ∈ senderWalk st ↔ u ∈ st.sortedFee := fun u =>
    (mem_senderWalk st.bySender u).trans
      (mem_bucketsFlat_iff_sorted hI.struct.senderWF hI.struct.memSender u)
  simp only [evictTransactions]
  rw [mem_sortedFee_foldl_remove (foldl_removeTransaction_invS hI.struct) t,
    mem_sortedFee_foldl_remove hI.struct t]
  constructor
  · rintro ⟨⟨hmem, hnm⟩, hne⟩
    refine ⟨hmem, ?_⟩
    cases hmark : evictMark env (env.blockNumber + 1) t with
    | mined =>
      exact absurd (List.mem_filter.mpr ⟨(hwalk t).mpr hmem, by simp [hmark]⟩) hnm
    | evicted =>
      exact absurd (List.mem_filter.mpr ⟨(hwalk t).mpr hmem, by simp [hmark]⟩) hne
    | keep => rfl
  · rintro ⟨hmem, hkeep⟩
    refine ⟨⟨hmem, fun hc => ?_⟩, fun hc => ?_⟩
    · have h2 := (List.mem_filter.mp hc).2
      rw [hkeep] at h2
      simp at h2
    · have h2 := (List.mem_filter.mp hc).2
      rw [hkeep] at h2
      simp at h2

/-- Witness for C6 at the two-transaction pool over the balance
environment. -/
theorem claim_C6_witness :
    e1 ∈ (evictTransactions balEnv evSt).sortedFee ↔
      e1 ∈ evSt.sortedFee ∧ evictMark balEnv (balEnv.blockNumber + 1) e1 = .keep :=
  claim_C6 balEnv evSt e1 (pushSeq_inv [e1, e2] poolInv_empty (by decide))

/-- C7 (code bug): the recipient balance policy is evaluated on a `new`
balance re-fetched through `blockchain.get_account`, which reads committed
chain state and cannot observe the open scoped write-transaction, so
`new = old`.  With a recipient balance of 0, a policy requiring a
post-balance of at least 5, and a transaction of value 10: the true
post-balance after the incoming side is 10, which the policy accepts, yet
`push_transaction` blacklists the fingerprint and returns `Filtered`. -/
theorem claim_C7 :
    (pushTransaction rbEnv emptyState cbTx).1 = ReturnCode.Filtered ∧
      (pushTransaction rbEnv emptyState cbTx).2 =
        withBlacklist rbEnv emptyState (fingerprint cbTx) ∧
      rbEnv.acceptsRecipientBalance cbTx
        (((rbEnv.getAccount cbTx.recipient).getD ⟨0, 0⟩).balance)
        (((rbEnv.getAccount cbTx.recipient).getD ⟨0, 0⟩).balance + cbTx.value) =
          true := by
  decide

theorem fillers_length : fillers.length = SIZE_MAX := by
  simp [fillers]

theorem txCmp_tLow_fillers : ∀ u ∈ fillers, txCmp tLow u = .lt := by
  intro u hu
  obtain ⟨i, -, rfl⟩ := List.mem_map.mp hu
  simp [txCmp, tLow, fillTx]

theorem tLow_not_mem_fillers : tLow ∉ fillers := by
  intro hc
  obtain ⟨i, -, hiq⟩ := List.mem_map.mp hc
  have hs : (100 : Nat) + i = 1 := congrArg Tx.sender hiq
  omega

/-- A hash map over transactions none of which has the sought fingerprint
resolves to `none`. -/
theorem lookupA_hashMap_none {k : Nat} :
    ∀ {l : List Tx}, (∀ u ∈ l, fingerprint u ≠ k) →
      lookupA k (l.map (fun u => (fingerprint u, u))) = none
  | [], _ => rfl
  | u :: r, h => by
    rw [List.map_cons, lookupA, if_neg (h u (List.mem_cons_self u r))]
    exact lookupA_hashMap_none (fun v hv => h v (List.mem_cons_of_mem u hv))

/-- A singleton-bucket sender map over transactions of other senders resolves
to `none`. -/
theorem lookupA_senderMap_none {k : Nat} :
    ∀ {l : List Tx}, (∀ u ∈ l, u.sender ≠ k) →
      lookupA k (l.map (fun u => (u.sender, [u]))) = none
  | [], _ => rfl
  | u :: r, h => by
    rw [List.map_cons, lookupA, if_neg (h u (List.mem_cons_self u r))]
    exact lookupA_senderMap_none (fun v hv => h v (List.mem_cons_of_mem u hv))

theorem bigS_hash_none : lookupA (fingerprint tLow) bigS.byHash = none := by
  have hb : bigS.byHash = fillers.map (fun u => (fingerprint u, u)) := by
    simp only [bigS]
  rw [hb]
  refine lookupA_hashMap_none ?_
  intro u hu hq
  exact tLow_not_mem_fillers (fingerprint_injective hq ▸ hu)

theorem bigS_sender_none : lookupA tLow.sender bigS.bySender = none := by
  have hb : bigS.bySender = fillers.map (fun u => (u.sender, [u])) := by
    simp only [bigS]
  rw [hb]
  refine lookupA_senderMap_none ?_
  intro u hu hq
  obtain ⟨i, -, rfl⟩ := List.mem_map.mp hu
  have hs : (100 : Nat) + i = 1 := by simpa [fillTx, tLow] using hq
  omega

/-- Inserting an element below the whole set prepends it. -/
theorem setInsert_all_lt {t : Tx} : ∀ {l : List Tx},
    (∀ u ∈ l, txCmp t u = .lt) → setInsert t l = t :: l
  | [], _ => rfl
  | u :: r, h => by
    simp [setInsert, h u (List.mem_cons_self u r)]

/-- Erasing the head it compares equal to drops it. -/
theorem setErase_cons_self (t : Tx) (r : List Tx) : setErase t (t :: r) = r := by
  simp [setErase, txCmp_self]

/-- Erasing a freshly inserted key restores the map. -/
theorem eraseA_insertA_fresh {α : Type} {k : Nat} {v : α} :
    ∀ {m : List (Nat × α)}, lookupA k m = none → eraseA k (insertA k v m) = m
  | [], _ => by simp [insertA, eraseA]
  | (k', v') :: r, h => by
    rw [lookupA] at h
    split at h
    · cases h
    next hk =>
    rw [insertA, if_neg hk, eraseA, if_neg hk, eraseA_insertA_fresh h]

/-- Erasing a transaction just inserted into a fresh bucket restores the
map. -/
theorem bucketErase_bucketInsert_fresh {k : Nat} {t : Tx} :
    ∀ {m : List (Nat × List Tx)}, lookupA k m = none →
      bucketErase k t (bucketInsert k t m) = m
  | [], _ => by simp [bucketInsert, bucketErase, setErase_cons_self]
  | (k', b) :: r, h => by
    rw [lookupA] at h
    split at h
    · cases h
    next hk =>
    rw [bucketInsert, if_neg hk, bucketErase, if_neg hk, bucketErase_bucketInsert_fresh h]

/-- Adding and removing `tLow` leaves the full pool unchanged. -/
theorem addRemove_bigS :
    removeTransaction (addTransaction bigS (fingerprint tLow) tLow) tLow = bigS := by
  have hsi : setInsert tLow fillers = tLow :: fillers := setInsert_all_lt txCmp_tLow_fillers
  have hnnil : fillers ≠ [] := by
    intro h
    have := congrArg List.length h
    rw [fillers_length] at this
    simp [SIZE_MAX] at this
  have hne : fillers.isEmpty = false := by
    cases hh : fillers.isEmpty
    · rfl
    · exact absurd (List.isEmpty_iff.mp hh) hnnil
  have h1 : eraseA (fingerprint tLow) (insertA (fingerprint tLow) tLow bigS.byHash) =
      bigS.byHash := eraseA_insertA_fresh bigS_hash_none
  have h2 : bucketErase tLow.sender tLow (bucketInsert tLow.sender tLow bigS.bySender) =
      bigS.bySender := bucketErase_bucketInsert_fresh bigS_sender_none
  have h3 : bucketErase tLow.recipient tLow
      (bucketInsert tLow.recipient tLow bigS.byRecipient) = bigS.byRecipient := by
    have hbr : bigS.byRecipient = [(2, fillers)] := by
      simp only [bigS]
    have hrt : tLow.recipient = 2 := rfl
    rw [hbr, hrt, bucketInsert, if_pos rfl, hsi, bucketErase, if_pos rfl]
    simp only [setErase_cons_self, hne]
    simp
  have h4 : setErase tLow (setInsert tLow bigS.sortedFee) = bigS.sortedFee := by
    have hsf : bigS.sortedFee = fillers := by
      simp only [bigS]
    rw [hsf, hsi, setErase_cons_self]
  simp only [addTransaction, removeTransaction, h1, h2, h3, h4]

/-- Folded removals leave the blacklist untouched. -/
theorem foldl_remove_blacklist :
    ∀ (l : List Tx) (st : MempoolState),
      (l.foldl removeTransaction st).blacklist = st.blacklist
  | [], _ => rfl
  | a :: r, st => by
    rw [List.foldl_cons, foldl_remove_blacklist r]
    rfl

/-- The commit block leaves the blacklist untouched. -/
theorem pushCommit_blacklist (st : MempoolState) (t : Tx) (l : List Tx) :
    (pushCommit st t l).blacklist = st.blacklist := by
  have hb : (l.foldl removeTransaction (addTransaction st (fingerprint t) t)).blacklist =
      st.blacklist := (foldl_remove_blacklist l _).trans rfl
  have hpc : pushCommit st t l =
      (if SIZE_MAX <
          (l.foldl removeTransaction (addTransaction st (fingerprint t) t)).sortedFee.length then
        match (l.foldl removeTransaction (addTransaction st (fingerprint t) t)).sortedFee.head? with
        | some m =>
          removeTransaction (l.foldl removeTransaction (addTransaction st (fingerprint t) t)) m
        | none => l.foldl removeTransaction (addTransaction st (fingerprint t) t)
      else l.foldl removeTransaction (addTransaction st (fingerprint t) t)) := rfl
  rw [hpc]
  split
  · split
    next m _ => exact hb
    next => exact hb
  · exact hb

/-- Folded removals only shrink the fee set. -/
theorem foldl_remove_sortedFee_length_le :
    ∀ (l : List Tx) (st : MempoolState),
      (l.foldl removeTransaction st).sortedFee.length ≤ st.sortedFee.length
  | [], _ => le_refl _
  | a :: r, st =>
    le_trans (foldl_remove_sortedFee_length_le r _)
      (removeTransaction_sortedFee_length_le st a)

/-- Folded removals of other fingerprints do not change a hash lookup. -/
theorem foldl_remove_byHash_lookup {k : Nat} :
    ∀ (l : List Tx) (st : MempoolState), (∀ u ∈ l, fingerprint u ≠ k) →
      lookupA k (l.foldl removeTransaction st).byHash = lookupA k st.byHash
  | [], _, _ => rfl
  | a :: r, st, h => by
    rw [List.foldl_cons,
      foldl_remove_byHash_lookup r _ (fun u hu => h u (List.mem_cons_of_mem a hu))]
    exact lookupA_eraseA_ne (Ne.symm (h a (List.mem_cons_self a r))) st.byHash

/-- After a non-trimming commit block the new transaction is in `by_hash`. -/
theorem pushCommit_lookup_self (st : MempoolState) (t : Tx) (l : List Tx)
    (hlen : (l.foldl removeTransaction
      (addTransaction st (fingerprint t) t)).sortedFee.length ≤ SIZE_MAX)
    (hne : ∀ u ∈ l, fingerprint u ≠ fingerprint t) :
    lookupA (fingerprint t) (pushCommit st t l).byHash = some t := by
  have hpc : pushCommit st t l =
      (if SIZE_MAX <
          (l.foldl removeTransaction (addTransaction st (fingerprint t) t)).sortedFee.length then
        match (l.foldl removeTransaction (addTransaction st (fingerprint t) t)).sortedFee.head? with
        | some m =>
          removeTransaction (l.foldl removeTransaction (addTransaction st (fingerprint t) t)) m
        | none => l.foldl removeTransaction (addTransaction st (fingerprint t) t)
      else l.foldl removeTransaction (addTransaction st (fingerprint t) t)) := rfl
  rw [hpc, if_neg (by omega), foldl_remove_byHash_lookup l _ hne]
  exact lookupA_insertA_self _ _ _

/-- Shape of an `Accepted` run of `push_transaction`: the filter accepted the
transaction, it was not blacklisted or known, and the new state is the commit
block over eviction victims drawn from the sender's bucket. -/
theorem pushTransaction_shape {S : Type} (env : Env S) (st : MempoolState) (t : Tx) :
    (pushTransaction env st t).1 ≠ .Accepted ∨
      (env.acceptsTx t = true ∧ blacklisted st (fingerprint t) = false ∧
        lookupA (fingerprint t) st.byHash = none ∧
        ∃ toRemove : List Tx,
          (∀ u ∈ toRemove, u ∈ (lookupA t.sender st.bySender).getD []) ∧
          pushTransaction env st t = (.Accepted, pushCommit st t toRemove)) := by
  unfold pushTransaction
  split
  next => left; simp
  next hflt =>
  split
  next => left; simp
  next hkn =>
  split
  next => left; simp
  next =>
  split
  next => left; simp
  next =>
  split
  next => left; simp
  next =>
  split
  next => left; simp
  next =>
  unfold pushAccounts
  split
  next => left; simp
  next =>
  split
  next => left; simp
  next sim1 hinc =>
  split
  next => left; simp
  next =>
  split
  next => left; simp
  next senderAcc hacc =>
  split
  next => left; simp
  next =>
  unfold pushReplay
  split
  next => left; simp
  next sim2 k rest happ =>
  split
  next => left; simp
  next hk =>
  split
  next => left; simp
  next sim3 hout =>
  split
  next => left; simp
  next =>
  right
  obtain ⟨hna, hnb⟩ := not_or.mp hflt
  refine ⟨of_not_not hna, Bool.eq_false_iff.mpr hnb, ?_,
    (evictLower env rest sim3 (k + 1)).2.2, ?_, rfl⟩
  · cases hc : lookupA (fingerprint t) st.byHash with
    | none => rfl
    | some v =>
      rw [hc] at hkn
      exact absurd rfl hkn
  · intro u hu
    have h1 : u ∈ rest := (evictLower_spec env rest sim3 (k + 1)).2.2.1.subset hu
    have h2 := (applyHigher_spec env t _ sim1 0 happ).2.2.subset h1
    exact List.mem_reverse.mp h2

/-- The commit block with no eviction victims, when the pool overflows and
the new transaction is the minimum: it is trimmed right back out. -/
theorem pushCommit_trim (st : MempoolState) (t : Tx)
    (hgt : SIZE_MAX < (setInsert t st.sortedFee).length)
    (hhd : (setInsert t st.sortedFee).head? = some t) :
    pushCommit st t [] = removeTransaction (addTransaction st (fingerprint t) t) t := by
  have hpc : pushCommit st t [] =
      (if SIZE_MAX < (([] : List Tx).foldl removeTransaction
          (addTransaction st (fingerprint t) t)).sortedFee.length then
        match (([] : List Tx).foldl removeTransaction
            (addTransaction st (fingerprint t) t)).sortedFee.head? with
        | some m => removeTransaction (([] : List Tx).foldl removeTransaction
            (addTransaction st (fingerprint t) t)) m
        | none => ([] : List Tx).foldl removeTransaction
            (addTransaction st (fingerprint t) t)
      else ([] : List Tx).foldl removeTransaction
        (addTransaction st (fingerprint t) t)) := rfl
  have hfield : (addTransaction st (fingerprint t) t).sortedFee = setInsert t st.sortedFee :=
    rfl
  rw [hpc]
  simp only [List.foldl_nil]
  rw [hfield, if_pos hgt, hhd]

theorem bigS_sortedFee_eq : bigS.sortedFee = fillers := by
  simp only [bigS]

theorem setInsert_tLow_fillers : setInsert tLow fillers = tLow :: fillers :=
  setInsert_all_lt txCmp_tLow_fillers

theorem bigS_trim_gt : SIZE_MAX < (setInsert tLow bigS.sortedFee).length := by
  rw [bigS_sortedFee_eq, setInsert_tLow_fillers, List.length_cons, fillers_length]
  exact Nat.lt_succ_self SIZE_MAX

theorem bigS_trim_head : (setInsert tLow bigS.sortedFee).head? = some tLow := by
  rw [bigS_sortedFee_eq, setInsert_tLow_fillers]
  rfl

/-- Committing `tLow` into the full pool trims it right back out. -/
theorem pushCommit_bigS : pushCommit bigS tLow [] = bigS := by
  rw [pushCommit_trim bigS tLow bigS_trim_gt bigS_trim_head]
  exact addRemove_bigS

/-- Pushing the low-fee transaction into the full pool is `Accepted`, yet the
resulting pool is the one before the push. -/
theorem push_bigS : pushTransaction unitEnv bigS tLow = (.Accepted, bigS) := by
  have hblk : bigS.blacklist = [] := by
    simp only [bigS]
  have hbl : blacklisted bigS (fingerprint tLow) = false := by
    unfold blacklisted
    rw [hblk]
    rfl
  have hstep : pushTransaction unitEnv bigS tLow = (.Accepted, pushCommit bigS tLow []) := by
    unfold pushTransaction
    rw [bigS_hash_none, bigS_sender_none, hbl]
    rfl
  rw [hstep, pushCommit_bigS]

/-- Counterexample to C8: on a pool already holding `SIZE_MAX` transactions,
pushing a transaction of minimal fee ordering returns `Accepted` but the
`SIZE_MAX` trim immediately evicts the transaction just added, so an
immediately repeated push returns `Accepted` again — not `Known`. -/
theorem claim_C8_cex :
    (pushTransaction unitEnv bigS tLow).1 = ReturnCode.Accepted ∧
      (pushTransaction unitEnv
        (pushTransaction unitEnv bigS tLow).2 tLow).1 = ReturnCode.Accepted := by
  rw [push_bigS]
  constructor
  · rfl
  · show (pushTransaction unitEnv bigS tLow).1 = ReturnCode.Accepted
    rw [push_bigS]

/-- C8 (amended): for a pool satisfying the invariants and strictly below the
`SIZE_MAX` capacity, if `push_transaction(t)` returns `Accepted` then an
immediately following `push_transaction(t)` returns `Known` and leaves the
pool completely unchanged.  (At capacity the trim can evict `t` itself, see
the counterexample.) -/
theorem claim_C8 {S : Type} (env : Env S) (st : MempoolState) (t : Tx)
    (hI : PoolInv st) (hlen : st.sortedFee.length < SIZE_MAX)
    (hAcc : (pushTransaction env st t).1 = ReturnCode.Accepted) :
    pushTransaction env (pushTransaction env st t).2 t =
      (.Known, (pushTransaction env st t).2) := by
  rcases pushTransaction_shape env st t with h | ⟨hacc, hbl, hlk, toRemove, hsub, heq⟩
  · exact absurd hAcc h
  · have htnotmem : t ∉ st.sortedFee := by
      intro hc
      rw [(hI.struct.memHash t).mp hc] at hlk
      cases hlk
    have hne : ∀ u ∈ toRemove, fingerprint u ≠ fingerprint t := by
      intro u hu hq
      have hut : u = t := fingerprint_injective hq
      have hb := hsub u hu
      cases hlkb : lookupA t.sender st.bySender with
      | none =>
        rw [hlkb] at hb
        simp at hb
      | some b =>
        rw [hlkb] at hb
        simp only [Option.getD_some] at hb
        have hmemP := lookupA_mem hlkb
        have hks : u.sender = t.sender := (hI.struct.senderWF.2 _ hmemP).2.2 u hb
        have hmm : u ∈ st.sortedFee := (hI.struct.memSender u).mpr
          ⟨b, by rw [hks]; exact hlkb, hb⟩
        rw [hut] at hmm
        exact htnotmem hmm
    have hlen2 : (toRemove.foldl removeTransaction
        (addTransaction st (fingerprint t) t)).sortedFee.length ≤ SIZE_MAX := by
      have h1 := foldl_remove_sortedFee_length_le toRemove
        (addTransaction st (fingerprint t) t)
      have h2 : (addTransaction st (fingerprint t) t).sortedFee.length ≤
          st.sortedFee.length + 1 := setInsert_length_le t _
      omega
    have hlk2 : lookupA (fingerprint t) (pushCommit st t toRemove).byHash = some t :=
      pushCommit_lookup_self st t toRemove hlen2 hne
    have hbl2 : blacklisted (pushCommit st t toRemove) (fingerprint t) = false := by
      unfold blacklisted
      rw [pushCommit_blacklist]
      exact hbl
    rw [heq]
    show pushTransaction env (pushCommit st t toRemove) t =
      (.Known, pushCommit st t toRemove)
    have hc1 : ¬ (¬ env.acceptsTx t = true ∨
        blacklisted (pushCommit st t toRemove) (fingerprint t) = true) := by
      rw [hacc, hbl2]
      decide
    have hc2 : (lookupA (fingerprint t) (pushCommit st t toRemove).byHash).isSome = true := by
      rw [hlk2]
      rfl
    unfold pushTransaction
    rw [if_neg hc1, if_pos hc2]

/-- Witness for C8 at a concrete accepted push on the empty pool. -/
theorem claim_C8_witness :
    pushTransaction unitEnv (pushTransaction unitEnv emptyState txW).2 txW =
      (.Known, (pushTransaction unitEnv emptyState txW).2) :=
  claim_C8 unitEnv emptyState txW poolInv_empty (by decide) (by decide)

/-- C9: the SHA-256 subsystem hashes `"test"` to
`9f86d081884c7d659a2feaa0c55ad015a3bf4f1b2b0b822cd15d6c15b0f00a08`, both as a
one-shot digest and as the streaming computation
`write("te") · write("st") · finish()`. -/
theorem claim_C9 :
    sha256 (strBytes "test") =
      hexDecode "9f86d081884c7d659a2feaa0c55ad015a3bf4f1b2b0b822cd15d6c15b0f00a08" ∧
      sha256HasherFinish
        (sha256HasherWrite (sha256HasherWrite sha256HasherDefault (strBytes "te"))
          (strBytes "st")) =
        hexDecode "9f86d081884c7d659a2feaa0c55ad015a3bf4f1b2b0b822cd15d6c15b0f00a08" := by
  constructor
  · decide
  · decide

/-- The block-building walk's size invariant: from an in-budget accumulated
size, the sizes it adds keep the total within the budget. -/
theorem gtfbWalk_size {S : Type} (env : Env S) (maxSize : Nat) :
    ∀ (l : List Tx) (sim : S) (size : Nat), size ≤ maxSize →
      size + sumSizes (gtfbWalk env maxSize l sim size) ≤ maxSize := by
  intro l
  induction l with
  | nil =>
    intro sim size h
    simpa [gtfbWalk, sumSizes] using h
  | cons u r ih =>
    intro sim size h
    have hstep : ∀ sim' : S,
        size + sumSizes (if size + u.size ≤ maxSize then
            u :: gtfbWalk env maxSize r sim' (size + u.size)
          else if maxSize - size < env.minTxSize then []
          else gtfbWalk env maxSize r sim' size) ≤ maxSize := by
      intro sim'
      split
      next hle =>
        have hrec := ih sim' (size + u.size) hle
        simp only [sumSizes, List.map_cons, List.sum_cons] at hrec ⊢
        omega
      next hnle =>
        split
        · simpa [sumSizes] using h
        · exact ih sim' size h
    simp only [gtfbWalk]
    split
    next hs =>
      split
      next hc => exact ih sim size h
      next sim1 hc =>
        split
        next hr =>
          split
          next hic => exact ih (env.revertOutgoing sim1 u) size h
          next sim2 hic => exact hstep sim2
        next hr => exact hstep sim1
    next hs =>
      split
      next hr =>
        split
        next hic => exact ih sim size h
        next sim1 hic => exact hstep sim1
      next hr => exact hstep sim

/-- C10: in `get_transactions_for_block(max_size)` the running accumulated
size never exceeds `max_size` at any point of the walk (it starts at 0 and
only grows on the `size + serialized_size(t) ≤ max_size` test), so the budget
subtraction never underflows and the total serialized size of the returned
list is at most `max_size`. -/
theorem claim_C10 {S : Type} (env : Env S) (st : MempoolState) (maxSize : Nat)
    (l : List Tx) (sim : S) (size : Nat) (h : size ≤ maxSize) :
    size + sumSizes (gtfbWalk env maxSize l sim size) ≤ maxSize ∧
      sumSizes (getTransactionsForBlock env st maxSize) ≤ maxSize := by
  refine ⟨gtfbWalk_size env maxSize l sim size h, ?_⟩
  have hw := gtfbWalk_size env maxSize st.sortedFee env.freshSim 0 (Nat.zero_le _)
  simpa [getTransactionsForBlock] using hw

/-- Witness for C10 at a concrete walk and pool. -/
theorem claim_C10_witness :
    0 + sumSizes (gtfbWalk unitEnv 100 [txA] () 0) ≤ 100 ∧
      sumSizes (getTransactionsForBlock unitEnv gtfbSt 100) ≤ 100 :=
  claim_C10 unitEnv gtfbSt 100 [txA] () 0 (by decide)
